import Mathlib

/-!
Shallow embedding of the z2pdf map-extraction core (`src/z2pdf/main.py`).

The external `zparser` byte-accessor layer (object records, object names,
dictionary words, header fields) is the trusted primitive API of the spec's
section 6; it is modelled abstractly as fields of `ZParserM`.  The story
image is the byte list `data`; a byte read `data[a]` that the Python code
performs only under an explicit bounds guard is embedded as `List.getD` under
the same guard.  Python `bytes` slices clamp to the buffer, embedded as
`drop`/`take`.  Bounded loops over Python `range(...)` become folds over
`List.range'`; loops whose cursor advances by a data-dependent amount become
structural recursion on a fuel argument initialised to the image length,
which can never be exhausted because every iteration advances the address by
at least one byte while the loop guard keeps the address below the image
length.  Python dicts are association lists with in-place value replacement
(`dictInsert`), Python sets are lists with membership-guarded append
(`insertKey`).
-/

set_option maxRecDepth 100000

namespace Z2PDF

/-- Association-list lookup, the embedding of Python `d[k]` / `k in d`. -/
def alookup {α β : Type} [DecidableEq α] : List (α × β) → α → Option β
  | [], _ => none
  | (k, v) :: rest, a => if k = a then some v else alookup rest a

/-- Python dict assignment `d[k] = v`: replace in place, else append. -/
def dictInsert {α β : Type} [DecidableEq α] (k : α) (v : β) :
    List (α × β) → List (α × β)
  | [] => [(k, v)]
  | (k', v') :: rest =>
    if k' = k then (k, v) :: rest else (k', v') :: dictInsert k v rest

/-- Python set add `s.add(k)`: append when absent. -/
def insertKey (k : Nat) (l : List Nat) : List Nat :=
  if k ∈ l then l else l ++ [k]

/-- First-occurrence deduplication with an explicit seen accumulator,
mirroring the Python seen-set loop idiom. -/
def firstDedupAux {α : Type} [DecidableEq α] : List α → List α → List α
  | _, [] => []
  | seen, x :: xs =>
    if x ∈ seen then firstDedupAux seen xs else x :: firstDedupAux (x :: seen) xs

/-- Keep the first occurrence of each element, in order. -/
def firstDedup {α : Type} [DecidableEq α] (l : List α) : List α :=
  firstDedupAux [] l

/-- `Counter(l).most_common(1)`: the element of maximal multiplicity,
ties broken by first insertion order (CPython's `most_common` sort is
stable with respect to first-insertion order of the counter keys). -/
def mostCommonFirst (l : List Nat) : Option Nat :=
  (firstDedup l).foldl
    (fun best x =>
      match best with
      | none => some x
      | some b => if l.count b < l.count x then some x else some b)
    none

/-- An object record of the external parser: parent identifier and
property-table address (the only fields the extraction core reads). -/
structure ZObjectM where
  parent : Nat
  properties : Nat
  deriving DecidableEq

/-- The external `ZParser` primitive API (spec section 6): the raw image
bytes, decoded header fields, and the object/name/dictionary accessors.
`getObject n = none` embeds Python's falsy `get_object` result;
`getObjectName n = none` embeds a missing/undecodable short name. -/
structure ZParserM where
  data : List Nat
  version : Nat
  dictionary : Nat
  getObject : Nat → Option ZObjectM
  getObjectName : Nat → Option String
  dictWords : List String

/-! ## StaticExitExtractor._get_object_properties

The walk over one object's property records.  Besides the decoded table it
returns the trace of addresses at which the code indexes a single byte
(`data[prop_addr]`); slice reads clamp in Python and never touch addresses,
so they do not appear in the trace. -/

/-- Loop body of `_get_object_properties`: `while prop_addr < len(data) - 10`,
version-3 size byte (5-bit property number, 3-bit size).  Fuel is initialised
to the image length by the wrapper and cannot run out there, because each
iteration advances the address by at least two while the guard keeps it below
the image length. -/
def getObjPropsAux (data : List Nat) :
    Nat → Nat → List (Nat × List Nat) → (List (Nat × List Nat) × List Nat)
  | 0, _, props => (props, [])
  | fuel + 1, addr, props =>
    if addr < data.length - 10 then
      let sizeByte := data.getD addr 0
      if sizeByte = 0 then (props, [addr])
      else
        let propNum := sizeByte &&& 31
        let propSize := (sizeByte >>> 5) + 1
        let propData := (data.drop (addr + 1)).take propSize
        let r := getObjPropsAux data fuel (addr + 1 + propSize)
          (dictInsert propNum propData props)
        (r.1, addr :: r.2)
    else (props, [])

/-- `_get_object_properties` with its byte-read trace. -/
def getObjectPropertiesT (ps : ZParserM) (objNum : Nat) :
    (List (Nat × List Nat) × List Nat) :=
  match ps.getObject objNum with
  | none => ([], [])
  | some obj =>
    if obj.properties < ps.data.length then
      let textLength := ps.data.getD obj.properties 0
      let r := getObjPropsAux ps.data ps.data.length
        (obj.properties + 1 + textLength * 2) []
      (r.1, obj.properties :: r.2)
    else ([], [])

/-- The decoded property table of one object (`_get_object_properties`). -/
def getObjectProperties (ps : ZParserM) (objNum : Nat) : List (Nat × List Nat) :=
  (getObjectPropertiesT ps objNum).1

/-- The addresses at which `_get_object_properties` indexes a byte. -/
def getObjectPropertiesReads (ps : ZParserM) (objNum : Nat) : List Nat :=
  (getObjectPropertiesT ps objNum).2

/-! ## StaticExitExtractor._find_exit_properties -/

/-- `_find_exit_properties`: over every room's decoded property table, skip
property numbers below 13, and mark a property number as an exit property
when some byte of its value is the identifier of a room other than the one
being scanned.  The Python result is a set; the embedding keeps discovery
order. -/
def findExitProperties (ps : ZParserM) (roomKeys : List Nat) : List Nat :=
  roomKeys.foldl
    (fun acc roomNum =>
      (getObjectProperties ps roomNum).foldl
        (fun acc pd =>
          if pd.1 < 13 then acc
          else if pd.2.any (fun b => roomKeys.contains b && b != roomNum) then
            insertKey pd.1 acc
          else acc)
        acc)
    []

/-! ## StaticExitExtractor._extract_room_refs_from_property -/

/-- The multi-byte scan of `_extract_room_refs_from_property`: left-to-right,
recording each byte that is a valid other-room identifier, with a seen set
suppressing duplicates. -/
def extractRoomRefsLoop (roomObjs : List Nat) (roomNum : Nat) :
    List Nat → List Nat → List Nat → List Nat
  | [], _, refs => refs
  | b :: rest, seen, refs =>
    if roomObjs.contains b && b != roomNum then
      if b ∈ seen then extractRoomRefsLoop roomObjs roomNum rest seen refs
      else extractRoomRefsLoop roomObjs roomNum rest (b :: seen) (refs ++ [b])
    else extractRoomRefsLoop roomObjs roomNum rest seen refs

/-- `_extract_room_refs_from_property`: a one-byte value is the direct
destination (rejecting self-loops and non-room targets); otherwise scan all
bytes. -/
def extractRoomRefs (propData : List Nat) (roomNum : Nat)
    (roomObjs : List Nat) : List Nat :=
  if propData.length = 1 then
    if roomObjs.contains (propData.getD 0 0) && propData.getD 0 0 != roomNum then
      [propData.getD 0 0]
    else []
  else
    extractRoomRefsLoop roomObjs roomNum propData [] []

/-! ## StaticExitExtractor._get_property_to_word_mapping

The indexed byte reads of the dictionary-header decode are unguarded in the
source (an out-of-range read raises), so the header decode is embedded in
`Option`: `none` is the raising path, on which the function never returns a
mapping. -/

/-- The dictionary-header decode of `_get_property_to_word_mapping`:
separator count, entry byte-length, the (unused) entry count, and the entry
table base address. -/
def dictHeader (ps : ZParserM) : Option (Nat × Nat) :=
  match ps.data.get? ps.dictionary with
  | none => none
  | some numSeps =>
    let a1 := ps.dictionary + 1 + numSeps
    match ps.data.get? a1 with
    | none => none
    | some entryLength =>
      match ps.data.get? (a1 + 1), ps.data.get? (a1 + 2) with
      | some _, some _ => some (entryLength, a1 + 3)
      | _, _ => none

/-- The extra bytes of dictionary entry `i`:
`data[addr + 4 : addr + entry_length]` with `addr = base + i * entry_length`
(Python slices clamp to the buffer). -/
def entryExtra (data : List Nat) (base entryLength i : Nat) : List Nat :=
  (data.drop (base + i * entryLength + 4)).take (entryLength - 4)

/-- ASCII model of Python `str.strip()`: drop leading and trailing
whitespace. -/
def pyStrip (l : List Char) : List Char :=
  ((l.dropWhile Char.isWhitespace).reverse.dropWhile Char.isWhitespace).reverse

/-- `word.strip().lower()` (ASCII model of the Unicode lowering). -/
def pyNormWord (s : String) : String :=
  ⟨(pyStrip s.data).map Char.toLower⟩

/-- The entry loop of `_get_property_to_word_mapping`: every extra byte in
range 1..31 is a candidate property number; only the first word observed for
a given number is kept. -/
def buildPropToWord (data : List Nat) (base entryLength : Nat)
    (words : List String) : List (Nat × String) :=
  words.enum.foldl
    (fun acc iw =>
      let wNorm := pyNormWord iw.2
      (entryExtra data base entryLength iw.1).foldl
        (fun acc b =>
          if 1 ≤ b ∧ b ≤ 31 ∧ (alookup acc b).isNone then acc ++ [(b, wNorm)]
          else acc)
        acc)
    []

/-- `_get_property_to_word_mapping`: empty for entry length at most 4,
otherwise the first-wins scan of every entry's extra bytes. -/
def getPropertyToWordMapping (ps : ZParserM) : Option (List (Nat × String)) :=
  match dictHeader ps with
  | none => none
  | some (entryLength, base) =>
    if entryLength ≤ 4 then some []
    else some (buildPropToWord ps.data base entryLength ps.dictWords)

/-! ## StaticExitExtractor.extract_exits -/

/-- One room's exit mapping: label to destination, a Python dict. -/
abbrev RoomExits := List (String × Nat)

/-- The room table handed to `extract_exits`: room identifier with its
current exit mapping, in dict insertion order. -/
abbrev RoomsState := List (Nat × RoomExits)

/-- The destination loop of step 3 of `extract_exits`: walk the extracted
destinations; on the first one whose label is not yet bound, bind it, count
it and break.  (The label does not depend on the destination, so once it is
bound the loop runs out without writing.) -/
def addFirstDest (word : String) :
    List Nat → RoomExits × Nat → RoomExits × Nat
  | [], st => st
  | dest :: rest, (exits, cnt) =>
    if (alookup exits word).isSome then addFirstDest word rest (exits, cnt)
    else (exits ++ [(word, dest)], cnt + 1)

/-- Step 3 of `extract_exits` for one room: for each discovered exit
property present on the room, extract its destination list and add at most
one exit. -/
def processRoom (ps : ZParserM) (roomObjs : List Nat) (exitProps : List Nat)
    (propToWord : List (Nat × String)) (roomNum : Nat)
    (st : RoomExits × Nat) : RoomExits × Nat :=
  let props := getObjectProperties ps roomNum
  exitProps.foldl
    (fun st propNum =>
      match alookup props propNum with
      | none => st
      | some propData =>
        let dests := extractRoomRefs propData roomNum roomObjs
        let word := (alookup propToWord propNum).getD
          ("p" ++ toString propNum)
        addFirstDest word dests st)
    st

/-- Step 3 of `extract_exits` over all rooms, threading the running exit
count. -/
def processRooms (ps : ZParserM) (roomObjs : List Nat) (exitProps : List Nat)
    (propToWord : List (Nat × String)) :
    RoomsState → Nat → RoomsState × Nat
  | [], cnt => ([], cnt)
  | (roomNum, exits) :: rest, cnt =>
    let st := processRoom ps roomObjs exitProps propToWord roomNum (exits, cnt)
    let r := processRooms ps roomObjs exitProps propToWord rest st.2
    ((roomNum, st.1) :: r.1, r.2)

/-- `extract_exits`: early zero results for an empty room set or an empty
discovered exit-property set; otherwise the dictionary mapping is decoded
(`none` embeds the raising path), filtered to the discovered exit
properties, and step 3 runs.  Returns the updated room table and the total
exit count. -/
def extractExits (ps : ZParserM) (rooms : RoomsState) :
    Option (RoomsState × Nat) :=
  let roomObjs := rooms.map Prod.fst
  if roomObjs = [] then some (rooms, 0)
  else
    let exitProps := findExitProperties ps roomObjs
    if exitProps = [] then some (rooms, 0)
    else
      match getPropertyToWordMapping ps with
      | none => none
      | some ptw0 =>
        let propToWord := ptw0.filter (fun pw => exitProps.contains pw.1)
        some (processRooms ps roomObjs exitProps propToWord rooms 0)

/-- Total number of (label, destination) pairs across all rooms. -/
def exitsLenSum (rooms : RoomsState) : Nat :=
  (rooms.map (fun r => r.2.length)).sum

/-! ## ZMapExtractor._is_valid_name -/

/-- The per-character test of `_is_valid_name`:
`c.isprintable() and (c.isalnum() or c in ' -.,!?\'"')` — ASCII model (the
alphanumeric and punctuation characters accepted here are all printable, so
the printability conjunct is redundant on this ASCII model). -/
def pyCharOk (c : Char) : Bool :=
  c.isAlphanum || c == ' ' || c == '-' || c == '.' || c == ',' ||
    c == '!' || c == '?' || c == '\'' || c == '"'

/-- `_is_valid_name`: non-empty and at least 70% acceptable characters.  The
source compares the float `printable_count / total_count` with `0.7`; the
embedding uses the exact rational comparison `10 * printable ≥ 7 * total`,
which agrees with the double-precision comparison for every realisable name
length. -/
def isValidName (name : String) : Bool :=
  if name.data.isEmpty then false
  else
    let printableCount := (name.data.filter pyCharOk).length
    let totalCount := name.data.length
    decide (0 < totalCount) && decide (7 * totalCount ≤ 10 * printableCount)

/-- The shared name gate of the scanning loops:
`not name or not name.strip()` skips, then `_is_valid_name` must accept.
A missing name (`None`) also skips. -/
def nameOk (ps : ZParserM) (n : Nat) : Bool :=
  match ps.getObjectName n with
  | none => false
  | some s =>
    !s.data.isEmpty && !((s.data.dropWhile Char.isWhitespace).isEmpty) &&
      isValidName s

/-! ## ZMapExtractor._has_property -/

/-- The record walk of `_has_property` (both version branches), with the
byte-read trace.  In the extended (version 4+, bit-7) form the second size
byte is read only after its own bounds check, and the loop breaks before the
property-number comparison when that check fails. -/
def hasPropAux (data : List Nat) (version targetProp : Nat) :
    Nat → Nat → (Bool × List Nat)
  | 0, _ => (false, [])
  | fuel + 1, addr =>
    if addr < data.length then
      let sizeByte := data.getD addr 0
      if sizeByte = 0 then (false, [addr])
      else if version ≤ 3 then
        let pNum := sizeByte &&& 31
        let pSize := (sizeByte >>> 5) + 1
        if pNum = targetProp then (true, [addr])
        else
          let r := hasPropAux data version targetProp fuel (addr + 1 + pSize)
          (r.1, addr :: r.2)
      else
        let pNum := sizeByte &&& 63
        if sizeByte &&& 128 ≠ 0 then
          if data.length ≤ addr + 1 then (false, [addr])
          else
            let sz := (data.getD (addr + 1) 0) &&& 63
            let pSize := if sz = 0 then 64 else sz
            if pNum = targetProp then (true, [addr, addr + 1])
            else
              let r := hasPropAux data version targetProp fuel
                (addr + 1 + 1 + pSize)
              (r.1, addr :: (addr + 1) :: r.2)
        else
          let pSize := if sizeByte &&& 64 = 0 then 1 else 2
          if pNum = targetProp then (true, [addr])
          else
            let r := hasPropAux data version targetProp fuel (addr + 1 + pSize)
            (r.1, addr :: r.2)
    else (false, [])

/-- `_has_property` with its byte-read trace. -/
def hasPropertyT (ps : ZParserM) (objNum propNum : Nat) : Bool × List Nat :=
  match ps.getObject objNum with
  | none => (false, [])
  | some obj =>
    if obj.properties < ps.data.length then
      let textLength := ps.data.getD obj.properties 0
      let r := hasPropAux ps.data ps.version propNum ps.data.length
        (obj.properties + 1 + textLength * 2)
      (r.1, obj.properties :: r.2)
    else (false, [])

/-- `_has_property`. -/
def hasProperty (ps : ZParserM) (objNum propNum : Nat) : Bool :=
  (hasPropertyT ps objNum propNum).1

/-- The addresses at which `_has_property` reads a byte. -/
def hasPropertyReads (ps : ZParserM) (objNum propNum : Nat) : List Nat :=
  (hasPropertyT ps objNum propNum).2

/-! ## ZMapExtractor._has_exit_properties -/

/-- The counting walk of `_has_exit_properties`: true as soon as a fourth
property record is seen; the extended-form bounds break returns false even
when the count was just incremented. -/
def hasExitPropsAux (data : List Nat) (version : Nat) :
    Nat → Nat → Nat → Bool
  | 0, _, _ => false
  | fuel + 1, addr, cnt =>
    if addr < data.length then
      let sizeByte := data.getD addr 0
      if sizeByte = 0 then false
      else
        let cnt' := cnt + 1
        if version ≤ 3 then
          let pSize := (sizeByte >>> 5) + 1
          if 3 < cnt' then true
          else hasExitPropsAux data version fuel (addr + 1 + pSize) cnt'
        else if sizeByte &&& 128 ≠ 0 then
          if data.length ≤ addr + 1 then false
          else
            let sz := (data.getD (addr + 1) 0) &&& 63
            let pSize := if sz = 0 then 64 else sz
            if 3 < cnt' then true
            else hasExitPropsAux data version fuel (addr + 1 + 1 + pSize) cnt'
        else
          let pSize := if sizeByte &&& 64 = 0 then 1 else 2
          if 3 < cnt' then true
          else hasExitPropsAux data version fuel (addr + 1 + pSize) cnt'
    else false

/-- `_has_exit_properties`: the object's property table has more than three
records. -/
def hasExitProperties (ps : ZParserM) (objNum : Nat) : Bool :=
  match ps.getObject objNum with
  | none => false
  | some obj =>
    if obj.properties < ps.data.length then
      let textLength := ps.data.getD obj.properties 0
      hasExitPropsAux ps.data ps.version ps.data.length
        (obj.properties + 1 + textLength * 2) 0
    else false

/-! ## ZMapExtractor._find_rooms -/

/-- `max_obj = 255 if version <= 3 else 2000`. -/
def maxObjNum (ps : ZParserM) : Nat :=
  if ps.version ≤ 3 then 255 else 2000

/-- Upper bound of the phase-1/phase-2 scans: `range(1, min(max_obj, 256))`. -/
def scanBound (ps : ZParserM) : Nat :=
  min (maxObjNum ps) 256

/-- Upper bound of the fallback scan: `range(142, min(max_obj, 300))`. -/
def fbBound (ps : ZParserM) : Nat :=
  min (maxObjNum ps) 300

/-- Phase 1 of `_find_rooms`: the room candidates (valid-named objects whose
property table has more than three records), paired with their parents. -/
def phase1Candidates (ps : ZParserM) : List (Nat × Nat) :=
  (List.range' 1 (scanBound ps - 1)).filterMap
    (fun n =>
      match ps.getObject n with
      | none => none
      | some obj =>
        if nameOk ps n && hasExitProperties ps n then some (n, obj.parent)
        else none)

/-- The rooms container: most common candidate parent (`Counter.most_common`,
ties broken by first insertion), defaulting to 27 when there is no
candidate. -/
def roomsContainer (ps : ZParserM) : Nat :=
  match mostCommonFirst ((phase1Candidates ps).map Prod.snd) with
  | some c => c
  | none => 27

/-- The phase-2 admission test: the object decodes, its parent is the rooms
container, and its name passes the gate. -/
def phase2Cond (ps : ZParserM) (n : Nat) : Bool :=
  match ps.getObject n with
  | none => false
  | some obj => obj.parent == roomsContainer ps && nameOk ps n

/-- Phase 2 of `_find_rooms`: collect every object with the container as
parent and a valid name (dict assignment; the room identifier key set only
grows). -/
def phase2 (ps : ZParserM) (rooms0 : List Nat) : List Nat :=
  (List.range' 1 (scanBound ps - 1)).foldl
    (fun rooms n => if phase2Cond ps n then insertKey n rooms else rooms)
    rooms0

/-- Phase 3 of `_find_rooms`, the fallback range scan from object 142:
already-classified identifiers are skipped before decoding, an undecodable
object (`get_object` falsy) breaks the scan, an invalid name skips.  Fuel is
initialised to the scan bound by the wrapper, which can never be exhausted
since the cursor starts at 142 and increases by one per step. -/
def fallbackScan (ps : ZParserM) (stop : Nat) :
    Nat → Nat → List Nat → List Nat
  | 0, _, rooms => rooms
  | fuel + 1, n, rooms =>
    if n < stop then
      if n ∈ rooms then fallbackScan ps stop fuel (n + 1) rooms
      else
        match ps.getObject n with
        | none => rooms
        | some _ =>
          if nameOk ps n then fallbackScan ps stop fuel (n + 1) (rooms ++ [n])
          else fallbackScan ps stop fuel (n + 1) rooms
    else rooms

/-- The fallback scan as `_find_rooms` invokes it. -/
def runFallback (ps : ZParserM) (rooms : List Nat) : List Nat :=
  fallbackScan ps (fbBound ps) (fbBound ps) 142 rooms

/-- `_find_rooms` on the extractor's current room key set: phases 1 and 2,
then the fallback scan when fewer than ten rooms were found. -/
def findRooms (ps : ZParserM) (rooms0 : List Nat) : List Nat :=
  let r2 := phase2 ps rooms0
  if r2.length < 10 then runFallback ps r2 else r2

/-! ## ZMapExtractor._find_objects -/

/-- The scan loop of `_find_objects` over objects numbered below the lowest
room: an undecodable object breaks, an invalid name skips, and an object is
kept when it has property 5, 6 or 9. -/
def findObjectsScan (ps : ZParserM) (stop : Nat) :
    Nat → Nat → List Nat → List Nat
  | 0, _, acc => acc
  | fuel + 1, n, acc =>
    if n < stop then
      match ps.getObject n with
      | none => acc
      | some _ =>
        if nameOk ps n then
          if hasProperty ps n 5 || hasProperty ps n 6 || hasProperty ps n 9 then
            findObjectsScan ps stop fuel (n + 1) (acc ++ [n])
          else findObjectsScan ps stop fuel (n + 1) acc
        else findObjectsScan ps stop fuel (n + 1) acc
    else acc

/-- `_find_objects`: nothing for an empty room set, otherwise the scan over
`range(1, min(room keys))`, returning the classified object identifiers. -/
def findObjects (ps : ZParserM) (roomKeys : List Nat) : List Nat :=
  match roomKeys with
  | [] => []
  | k :: ks =>
    let minRoom := ks.foldl Nat.min k
    findObjectsScan ps minRoom minRoom 1 []

/-! ## Concrete story images

Small synthetic images used to exercise the definitions on closed inputs.
`psW` realises the spec's worked scenario: rooms 142 "Kitchen" and 143
"Cellar", room 142's property 15 holding the byte 143, and a dictionary
whose single extended entry maps property 15 to the word "down". -/

/-- Image bytes of the worked scenario: dictionary header at 0 (no
separators, entry length 7, one entry), entry text at 4..7, extra bytes
`[15, 0, 0]` at 8..10, room 142's property table at 11 (empty short name,
one size-1 property numbered 15 holding 143), room 143's property table at
15 (no properties), zero padding to length 30. -/
def dataW : List Nat :=
  [0, 7, 0, 1, 0, 0, 0, 0, 15, 0, 0, 0, 15, 143, 0, 0, 0,
   0, 0, 0, 0, 0, 0, 0, 0, 0, 0, 0, 0, 0]

/-- The worked-scenario story image. -/
def psW : ZParserM where
  data := dataW
  version := 3
  dictionary := 0
  getObject := fun n =>
    if n = 142 then some ⟨0, 11⟩
    else if n = 143 then some ⟨0, 15⟩
    else none
  getObjectName := fun n =>
    if n = 142 then some "Kitchen"
    else if n = 143 then some "Cellar"
    else none
  dictWords := ["down"]

/-- The worked-scenario room table before exit extraction. -/
def roomsW : RoomsState := [(142, []), (143, [])]

/-- A 40%-printable garbled name: two acceptable characters out of five. -/
def garbledName : String :=
  ⟨['a', 'b', Char.ofNat 1, Char.ofNat 2, Char.ofNat 3]⟩

/-- An image with an empty byte buffer, one garbled-named object 5, and one
valid-named object 142; the container clustering finds nothing, so the
fallback range scan decides the room set. -/
def psF : ZParserM where
  data := []
  version := 3
  dictionary := 0
  getObject := fun n =>
    if n = 5 then some ⟨0, 0⟩
    else if n = 142 then some ⟨0, 0⟩
    else none
  getObjectName := fun n =>
    if n = 5 then some garbledName
    else if n = 142 then some "Kitchen"
    else none
  dictWords := []

/-- An image whose only object is number 255 with parent 27 and a valid
name: object 255 lies outside the version-3 scan range `range(1, 255)`. -/
def psX : ZParserM where
  data := []
  version := 3
  dictionary := 0
  getObject := fun n => if n = 255 then some ⟨27, 0⟩ else none
  getObjectName := fun n => if n = 255 then some "Attic" else none
  dictWords := []

/-- An image whose only object is number 150 with parent 27 and a valid
name, inside the scan range. -/
def psY : ZParserM where
  data := []
  version := 3
  dictionary := 0
  getObject := fun n => if n = 150 then some ⟨27, 0⟩ else none
  getObjectName := fun n => if n = 150 then some "Attic" else none
  dictWords := []

/-- A tiny image whose single object carries an out-of-range property-table
address. -/
def psB : ZParserM where
  data := [1, 2, 3]
  version := 3
  dictionary := 0
  getObject := fun n => if n = 1 then some ⟨0, 100⟩ else none
  getObjectName := fun _ => none
  dictWords := []

/-- An image whose dictionary has the minimal 4-byte entry length (no room
for hint bytes). -/
def psD : ZParserM where
  data := [0, 4, 0, 0]
  version := 3
  dictionary := 0
  getObject := fun _ => none
  getObjectName := fun _ => none
  dictWords := ["go"]

/-! ## Helper lemmas -/

theorem mem_insertKey {k x : Nat} {l : List Nat} :
    x ∈ insertKey k l ↔ x = k ∨ x ∈ l := by
  unfold insertKey
  by_cases h : k ∈ l
  · simp only [if_pos h]
    constructor
    · exact Or.inr
    · rintro (rfl | hx)
      · exact h
      · exact hx
  · simp [if_neg h, List.mem_append, or_comm]

theorem mem_firstDedupAux {α : Type} [DecidableEq α] (l : List α) :
    ∀ (seen : List α) (x : α),
      x ∈ firstDedupAux seen l ↔ x ∈ l ∧ x ∉ seen := by
  induction l with
  | nil => intro seen x; simp [firstDedupAux]
  | cons y ys ih =>
    intro seen x
    by_cases hy : y ∈ seen
    · rw [firstDedupAux, if_pos hy, ih]
      constructor
      · rintro ⟨hx, hs⟩
        exact ⟨List.mem_cons_of_mem _ hx, hs⟩
      · rintro ⟨hx, hs⟩
        rcases List.mem_cons.mp hx with rfl | hx
        · exact absurd hy hs
        · exact ⟨hx, hs⟩
    · rw [firstDedupAux, if_neg hy, List.mem_cons, ih]
      constructor
      · rintro (rfl | ⟨hx, hs⟩)
        · exact ⟨List.mem_cons_self _ _, hy⟩
        · exact ⟨List.mem_cons_of_mem _ hx,
            fun h => hs (List.mem_cons_of_mem _ h)⟩
      · rintro ⟨hx, hs⟩
        rcases List.mem_cons.mp hx with rfl | hx
        · exact Or.inl rfl
        · by_cases hxy : x = y
          · exact Or.inl hxy
          · refine Or.inr ⟨hx, fun h => ?_⟩
            rcases List.mem_cons.mp h with h' | h'
            · exact hxy h'
            · exact hs h'

theorem nodup_firstDedupAux {α : Type} [DecidableEq α] (l : List α) :
    ∀ seen : List α, (firstDedupAux seen l).Nodup := by
  induction l with
  | nil => intro seen; simp [firstDedupAux]
  | cons y ys ih =>
    intro seen
    by_cases hy : y ∈ seen
    · simpa [firstDedupAux, if_pos hy] using ih seen
    · simp only [firstDedupAux, if_neg hy]
      refine List.nodup_cons.mpr ⟨?_, ih (y :: seen)⟩
      intro hmem
      exact ((mem_firstDedupAux ys (y :: seen) y).mp hmem).2 (List.mem_cons_self _ _)

theorem sublist_firstDedupAux {α : Type} [DecidableEq α] (l : List α) :
    ∀ seen : List α, (firstDedupAux seen l).Sublist l := by
  induction l with
  | nil => intro seen; simp [firstDedupAux]
  | cons y ys ih =>
    intro seen
    by_cases hy : y ∈ seen
    · simp only [firstDedupAux, if_pos hy]
      exact (ih seen).cons y
    · simp only [firstDedupAux, if_neg hy]
      exact (ih (y :: seen)).cons₂ y

theorem extractRoomRefsLoop_eq (roomObjs : List Nat) (roomNum : Nat)
    (l : List Nat) :
    ∀ (seen refs : List Nat),
      extractRoomRefsLoop roomObjs roomNum l seen refs
        = refs ++ firstDedupAux seen
            (l.filter (fun b => roomObjs.contains b && b != roomNum)) := by
  induction l with
  | nil => intro seen refs; simp [extractRoomRefsLoop, firstDedupAux]
  | cons b rest ih =>
    intro seen refs
    by_cases hb : (roomObjs.contains b && b != roomNum) = true
    · rw [extractRoomRefsLoop, if_pos hb, List.filter_cons, if_pos hb]
      by_cases hseen : b ∈ seen
      · rw [if_pos hseen, ih, firstDedupAux, if_pos hseen]
      · rw [if_neg hseen, ih, firstDedupAux, if_neg hseen,
          List.append_cons, List.append_assoc]
        simp
    · rw [extractRoomRefsLoop, if_neg hb, List.filter_cons, if_neg hb, ih]

theorem extractRoomRefs_eq (propData : List Nat) (roomNum : Nat)
    (roomObjs : List Nat) :
    extractRoomRefs propData roomNum roomObjs
      = firstDedup
          (propData.filter (fun b => roomObjs.contains b && b != roomNum)) := by
  unfold extractRoomRefs
  by_cases hlen : propData.length = 1
  · rcases List.length_eq_one.mp hlen with ⟨b, rfl⟩
    rw [if_pos hlen]
    by_cases hb : (roomObjs.contains b && b != roomNum) = true
    · simp only [List.getD, List.get?, Option.getD_some]
      rw [if_pos hb, List.filter_cons, if_pos hb, List.filter_nil]
      simp [firstDedup, firstDedupAux]
    · simp only [List.getD, List.get?, Option.getD_some]
      rw [if_neg hb, List.filter_cons, if_neg hb, List.filter_nil]
      simp [firstDedup, firstDedupAux]
  · rw [if_neg hlen, extractRoomRefsLoop_eq]
    simp [firstDedup]

/-- C2.  Every destination that `_extract_room_refs_from_property` records
is a classified room other than the source room; the result is the
left-to-right scan of the value's bytes (a sublist of the value) with
duplicates suppressed — precisely the first-occurrence deduplication of the
bytes that are valid other-room identifiers. -/
theorem extract_room_refs_correct (propData : List Nat) (roomNum : Nat)
    (roomObjs : List Nat) :
    extractRoomRefs propData roomNum roomObjs
        = firstDedup
            (propData.filter (fun b => roomObjs.contains b && b != roomNum)) ∧
      (∀ d ∈ extractRoomRefs propData roomNum roomObjs,
        d ∈ roomObjs ∧ d ≠ roomNum ∧ d ∈ propData) ∧
      (extractRoomRefs propData roomNum roomObjs).Nodup ∧
      (extractRoomRefs propData roomNum roomObjs).Sublist propData := by
  refine ⟨extractRoomRefs_eq _ _ _, ?_, ?_, ?_⟩
  · intro d hd
    rw [extractRoomRefs_eq] at hd
    have hd' := (mem_firstDedupAux _ _ _).mp hd
    have hmem := List.mem_filter.mp hd'.1
    have hok := hmem.2
    rw [Bool.and_eq_true] at hok
    refine ⟨?_, ?_, hmem.1⟩
    · have := hok.1
      simpa using this
    · have := hok.2
      simpa using this
  · rw [extractRoomRefs_eq]
    exact nodup_firstDedupAux _ _
  · rw [extractRoomRefs_eq]
    exact (sublist_firstDedupAux _ _).trans (List.filter_sublist _)

/-- Witness for C2 at a concrete multi-byte value: the byte 143 extracted
from room 142's property value `[143, 143, 7]` is a classified room other
than 142 and occurs in the value. -/
theorem extract_room_refs_correct_witness :
    143 ∈ [142, 143] ∧ 143 ≠ 142 ∧ 143 ∈ [143, 143, 7] :=
  (extract_room_refs_correct [143, 143, 7] 142 [142, 143]).2.1 143 (by decide)

theorem mem_keys_dictInsert {α β : Type} [DecidableEq α] (k : α) (v : β)
    (l : List (α × β)) (x : α) :
    x ∈ (dictInsert k v l).map Prod.fst ↔ x = k ∨ x ∈ l.map Prod.fst := by
  induction l with
  | nil => simp [dictInsert]
  | cons e rest ih =>
    by_cases he : e.1 = k
    · rw [show (e :: rest : List (α × β)) = (e.1, e.2) :: rest from rfl]
      rw [dictInsert, if_pos he]
      simp [he]
    · rw [show (e :: rest : List (α × β)) = (e.1, e.2) :: rest from rfl]
      rw [dictInsert, if_neg he]
      simp only [List.map_cons, List.mem_cons, ih]
      tauto

theorem nodup_keys_dictInsert {α β : Type} [DecidableEq α] (k : α) (v : β)
    (l : List (α × β)) (h : (l.map Prod.fst).Nodup) :
    ((dictInsert k v l).map Prod.fst).Nodup := by
  induction l with
  | nil => simp [dictInsert]
  | cons e rest ih =>
    rw [List.map_cons, List.nodup_cons] at h
    by_cases he : e.1 = k
    · rw [show (e :: rest : List (α × β)) = (e.1, e.2) :: rest from rfl]
      rw [dictInsert, if_pos he]
      rw [List.map_cons, List.nodup_cons]
      exact ⟨he ▸ h.1, h.2⟩
    · rw [show (e :: rest : List (α × β)) = (e.1, e.2) :: rest from rfl]
      rw [dictInsert, if_neg he]
      rw [List.map_cons, List.nodup_cons]
      refine ⟨?_, ih h.2⟩
      intro hmem
      rcases (mem_keys_dictInsert k v rest e.1).mp hmem with h' | h'
      · exact he h'
      · exact h.1 h'

theorem nodup_keys_getObjPropsAux (data : List Nat) :
    ∀ (fuel addr : Nat) (props : List (Nat × List Nat)),
      (props.map Prod.fst).Nodup →
      (((getObjPropsAux data fuel addr props).1).map Prod.fst).Nodup := by
  intro fuel
  induction fuel with
  | zero => intro addr props h; exact h
  | succ fuel ih =>
    intro addr props h
    rw [getObjPropsAux]
    by_cases hg : addr < data.length - 10
    · simp only [if_pos hg]
      by_cases hz : data.getD addr 0 = 0
      · rw [if_pos hz]
        exact h
      · rw [if_neg hz]
        exact ih _ _ (nodup_keys_dictInsert _ _ _ h)
    · simp only [if_neg hg]
      exact h

theorem nodup_keys_getObjectProperties (ps : ZParserM) (objNum : Nat) :
    ((getObjectProperties ps objNum).map Prod.fst).Nodup := by
  unfold getObjectProperties getObjectPropertiesT
  cases ps.getObject objNum with
  | none => simp
  | some obj =>
    by_cases h : obj.properties < ps.data.length
    · simp only [if_pos h]
      exact nodup_keys_getObjPropsAux _ _ _ _ (by simp)
    · simp [if_neg h]

theorem alookup_eq_some_iff_mem {α β : Type} [DecidableEq α]
    {l : List (α × β)} (h : (l.map Prod.fst).Nodup) (k : α) (v : β) :
    alookup l k = some v ↔ (k, v) ∈ l := by
  induction l with
  | nil => simp [alookup]
  | cons e rest ih =>
    rw [List.map_cons, List.nodup_cons] at h
    rw [show (e :: rest : List (α × β)) = (e.1, e.2) :: rest from rfl, alookup]
    by_cases he : e.1 = k
    · rw [if_pos he]
      subst he
      simp only [Option.some.injEq, List.mem_cons, Prod.mk.injEq,
        eq_self_iff_true, true_and]
      constructor
      · rintro rfl
        exact Or.inl rfl
      · rintro (rfl | hmem)
        · rfl
        · exact absurd (List.mem_map_of_mem Prod.fst hmem) h.1
    · rw [if_neg he]
      rw [ih h.2]
      simp only [List.mem_cons, Prod.mk.injEq]
      constructor
      · exact Or.inr
      · rintro (⟨rfl, -⟩ | hmem)
        · exact absurd rfl he
        · exact hmem

/-- The inner fold of `_find_exit_properties` over one room's decoded
entries: membership characterisation. -/
theorem mem_findExitProps_inner (roomKeys : List Nat) (roomNum : Nat)
    (entries : List (Nat × List Nat)) :
    ∀ (acc : List Nat) (p : Nat),
      p ∈ entries.foldl
          (fun acc pd =>
            if pd.1 < 13 then acc
            else if pd.2.any (fun b => roomKeys.contains b && b != roomNum) then
              insertKey pd.1 acc
            else acc)
          acc
        ↔ p ∈ acc ∨ ∃ pd ∈ entries, pd.1 = p ∧ 13 ≤ p ∧
            pd.2.any (fun b => roomKeys.contains b && b != roomNum) = true := by
  induction entries with
  | nil => intro acc p; simp
  | cons e rest ih =>
    intro acc p
    rw [List.foldl_cons]
    by_cases h13 : e.1 < 13
    · rw [if_pos h13, ih]
      constructor
      · rintro (hacc | hex)
        · exact Or.inl hacc
        · rcases hex with ⟨pd, hpd, hrest⟩
          exact Or.inr ⟨pd, List.mem_cons_of_mem _ hpd, hrest⟩
      · rintro (hacc | ⟨pd, hpd, rfl, hge, hany⟩)
        · exact Or.inl hacc
        · rcases List.mem_cons.mp hpd with rfl | hpd
          · omega
          · exact Or.inr ⟨pd, hpd, rfl, hge, hany⟩
    · rw [if_neg h13]
      by_cases hany : e.2.any (fun b => roomKeys.contains b && b != roomNum) = true
      · rw [if_pos hany, ih]
        constructor
        · rintro (hacc | hex)
          · rcases mem_insertKey.mp hacc with rfl | hacc
            · exact Or.inr ⟨e, List.mem_cons_self _ _, rfl, by omega, hany⟩
            · exact Or.inl hacc
          · rcases hex with ⟨pd, hpd, hrest⟩
            exact Or.inr ⟨pd, List.mem_cons_of_mem _ hpd, hrest⟩
        · rintro (hacc | ⟨pd, hpd, rfl, hge, hany'⟩)
          · exact Or.inl (mem_insertKey.mpr (Or.inr hacc))
          · rcases List.mem_cons.mp hpd with rfl | hpd
            · exact Or.inl (mem_insertKey.mpr (Or.inl rfl))
            · exact Or.inr ⟨pd, hpd, rfl, hge, hany'⟩
      · rw [if_neg hany, ih]
        constructor
        · rintro (hacc | ⟨pd, hpd, hrest⟩)
          · exact Or.inl hacc
          · exact Or.inr ⟨pd, List.mem_cons_of_mem _ hpd, hrest⟩
        · rintro (hacc | ⟨pd, hpd, rfl, hge, hany'⟩)
          · exact Or.inl hacc
          · rcases List.mem_cons.mp hpd with rfl | hpd
            · exact absurd hany' hany
            · exact Or.inr ⟨pd, hpd, rfl, hge, hany'⟩

/-- The outer fold of `_find_exit_properties` over the room list:
membership characterisation. -/
theorem mem_findExitProps_outer (ps : ZParserM) (roomKeys : List Nat) :
    ∀ (rooms : List Nat) (acc : List Nat) (p : Nat),
      p ∈ rooms.foldl
          (fun acc roomNum =>
            (getObjectProperties ps roomNum).foldl
              (fun acc pd =>
                if pd.1 < 13 then acc
                else if pd.2.any
                    (fun b => roomKeys.contains b && b != roomNum) then
                  insertKey pd.1 acc
                else acc)
              acc)
          acc
        ↔ p ∈ acc ∨ ∃ r ∈ rooms, ∃ pd ∈ getObjectProperties ps r,
            pd.1 = p ∧ 13 ≤ p ∧
            pd.2.any (fun b => roomKeys.contains b && b != r) = true := by
  intro rooms
  induction rooms with
  | nil => intro acc p; simp
  | cons r rest ih =>
    intro acc p
    rw [List.foldl_cons, ih, mem_findExitProps_inner]
    constructor
    · rintro ((hacc | ⟨pd, hpd, hc⟩) | ⟨r', hr', hex⟩)
      · exact Or.inl hacc
      · exact Or.inr ⟨r, List.mem_cons_self _ _, pd, hpd, hc⟩
      · exact Or.inr ⟨r', List.mem_cons_of_mem _ hr', hex⟩
    · rintro (hacc | ⟨r', hr', hex⟩)
      · exact Or.inl (Or.inl hacc)
      · rcases List.mem_cons.mp hr' with rfl | hr'
        · exact Or.inl (Or.inr hex)
        · exact Or.inr ⟨r', hr', hex⟩

/-- C1.  `_find_exit_properties` returns exactly the property numbers
`p ≥ 13` such that some classified room's decoded property table maps `p`
to a value one of whose bytes is the identifier of a classified room other
than the scanned room; in particular no property number below 13 is ever
returned. -/
theorem find_exit_properties_correct (ps : ZParserM) (roomKeys : List Nat)
    (p : Nat) :
    (p ∈ findExitProperties ps roomKeys ↔
      13 ≤ p ∧ ∃ r ∈ roomKeys, ∃ d,
        alookup (getObjectProperties ps r) p = some d ∧
        ∃ b ∈ d, b ∈ roomKeys ∧ b ≠ r) ∧
    (∀ q ∈ findExitProperties ps roomKeys, 13 ≤ q) := by
  have key : ∀ q, q ∈ findExitProperties ps roomKeys ↔
      13 ≤ q ∧ ∃ r ∈ roomKeys, ∃ d,
        alookup (getObjectProperties ps r) q = some d ∧
        ∃ b ∈ d, b ∈ roomKeys ∧ b ≠ r := by
    intro q
    unfold findExitProperties
    rw [mem_findExitProps_outer]
    simp only [List.mem_nil_iff, false_or]
    constructor
    · rintro ⟨r, hr, pd, hpd, rfl, hge, hany⟩
      refine ⟨hge, r, hr, pd.2, ?_, ?_⟩
      · exact (alookup_eq_some_iff_mem (nodup_keys_getObjectProperties ps r)
          pd.1 pd.2).mpr hpd
      · rcases List.any_eq_true.mp hany with ⟨b, hb, hok⟩
        rw [Bool.and_eq_true] at hok
        refine ⟨b, hb, ?_, ?_⟩
        · simpa using hok.1
        · simpa using hok.2
    · rintro ⟨hge, r, hr, d, hal, b, hb, hbk, hbr⟩
      have hpd := (alookup_eq_some_iff_mem
        (nodup_keys_getObjectProperties ps r) q d).mp hal
      refine ⟨r, hr, (q, d), hpd, rfl, hge, ?_⟩
      refine List.any_eq_true.mpr ⟨b, hb, ?_⟩
      rw [Bool.and_eq_true]
      exact ⟨by simpa using hbk, by simpa using hbr⟩
  exact ⟨key p, fun q hq => ((key q).mp hq).1⟩

/-- Witness for C1 on the worked scenario: property 15 of room 142 holds
the byte 143, so 15 is discovered as an exit property. -/
theorem find_exit_properties_correct_witness :
    15 ∈ findExitProperties psW [142, 143] :=
  (find_exit_properties_correct psW [142, 143] 15).1.mpr
    ⟨by decide, 142, by decide, [143], by decide, 143, by decide, by decide,
      by decide⟩

theorem reads_getObjPropsAux_lt (data : List Nat) :
    ∀ (fuel addr : Nat) (props : List (Nat × List Nat)),
      ∀ a ∈ (getObjPropsAux data fuel addr props).2, a < data.length := by
  intro fuel
  induction fuel with
  | zero => intro addr props a ha; simp [getObjPropsAux] at ha
  | succ fuel ih =>
    intro addr props a ha
    rw [getObjPropsAux] at ha
    by_cases hg : addr < data.length - 10
    · have haddr : addr < data.length := lt_of_lt_of_le hg (Nat.sub_le _ _)
      simp only [if_pos hg] at ha
      by_cases hz : data.getD addr 0 = 0
      · rw [if_pos hz] at ha
        rcases List.mem_singleton.mp ha with rfl
        exact haddr
      · rw [if_neg hz] at ha
        rcases List.mem_cons.mp ha with rfl | ha
        · exact haddr
        · exact ih _ _ a ha
    · simp only [if_neg hg] at ha
      simp at ha

theorem reads_getObjectProperties_lt (ps : ZParserM) (objNum : Nat) :
    ∀ a ∈ getObjectPropertiesReads ps objNum, a < ps.data.length := by
  intro a ha
  unfold getObjectPropertiesReads getObjectPropertiesT at ha
  cases hobj : ps.getObject objNum with
  | none => rw [hobj] at ha; simp at ha
  | some obj =>
    rw [hobj] at ha
    by_cases h : obj.properties < ps.data.length
    · simp only [if_pos h] at ha
      rcases List.mem_cons.mp ha with rfl | ha
      · exact h
      · exact reads_getObjPropsAux_lt _ _ _ _ a ha
    · simp only [if_neg h] at ha
      simp at ha

theorem reads_hasPropAux_lt (data : List Nat) (version targetProp : Nat) :
    ∀ (fuel addr : Nat),
      ∀ a ∈ (hasPropAux data version targetProp fuel addr).2,
        a < data.length := by
  intro fuel
  induction fuel with
  | zero => intro addr a ha; simp [hasPropAux] at ha
  | succ fuel ih =>
    intro addr a ha
    rw [hasPropAux] at ha
    by_cases hg : addr < data.length
    · simp only [if_pos hg] at ha
      by_cases hz : data.getD addr 0 = 0
      · rw [if_pos hz] at ha
        rcases List.mem_singleton.mp ha with rfl
        exact hg
      · rw [if_neg hz] at ha
        by_cases hv : version ≤ 3
        · rw [if_pos hv] at ha
          by_cases hp : data.getD addr 0 &&& 31 = targetProp
          · rw [if_pos hp] at ha
            rcases List.mem_singleton.mp ha with rfl
            exact hg
          · rw [if_neg hp] at ha
            rcases List.mem_cons.mp ha with rfl | ha
            · exact hg
            · exact ih _ a ha
        · rw [if_neg hv] at ha
          by_cases hx : data.getD addr 0 &&& 128 ≠ 0
          · rw [if_pos hx] at ha
            by_cases hb : data.length ≤ addr + 1
            · rw [if_pos hb] at ha
              rcases List.mem_singleton.mp ha with rfl
              exact hg
            · rw [if_neg hb] at ha
              by_cases hp : data.getD addr 0 &&& 63 = targetProp
              · rw [if_pos hp] at ha
                rcases List.mem_cons.mp ha with rfl | ha
                · exact hg
                · rcases List.mem_singleton.mp ha with rfl
                  exact lt_of_not_le hb
              · rw [if_neg hp] at ha
                rcases List.mem_cons.mp ha with rfl | ha
                · exact hg
                · rcases List.mem_cons.mp ha with rfl | ha
                  · exact lt_of_not_le hb
                  · exact ih _ a ha
          · rw [if_neg hx] at ha
            by_cases hp : data.getD addr 0 &&& 63 = targetProp
            · rw [if_pos hp] at ha
              rcases List.mem_singleton.mp ha with rfl
              exact hg
            · rw [if_neg hp] at ha
              rcases List.mem_cons.mp ha with rfl | ha
              · exact hg
              · exact ih _ a ha
    · simp only [if_neg hg] at ha
      simp at ha

theorem reads_hasProperty_lt (ps : ZParserM) (objNum propNum : Nat) :
    ∀ a ∈ hasPropertyReads ps objNum propNum, a < ps.data.length := by
  intro a ha
  unfold hasPropertyReads hasPropertyT at ha
  cases hobj : ps.getObject objNum with
  | none => rw [hobj] at ha; simp at ha
  | some obj =>
    rw [hobj] at ha
    by_cases h : obj.properties < ps.data.length
    · simp only [if_pos h] at ha
      rcases List.mem_cons.mp ha with rfl | ha
      · exact h
      · exact reads_hasPropAux_lt _ _ _ _ _ a ha
    · simp only [if_neg h] at ha
      simp at ha

/-- C7.  Property-table decoding fails soft and stays in bounds: an object
whose property-table address is at or beyond the image length yields an
empty decoded table, and every byte index performed by
`_get_object_properties` and `_has_property` is strictly below the image
length, for every image and every (possibly malformed) size byte. -/
theorem property_decoding_safe (ps : ZParserM) (objNum : Nat) :
    (∀ obj, ps.getObject objNum = some obj →
      ps.data.length ≤ obj.properties → getObjectProperties ps objNum = []) ∧
    (∀ a ∈ getObjectPropertiesReads ps objNum, a < ps.data.length) ∧
    (∀ propNum, ∀ a ∈ hasPropertyReads ps objNum propNum,
      a < ps.data.length) := by
  refine ⟨?_, reads_getObjectProperties_lt ps objNum,
    fun propNum => reads_hasProperty_lt ps objNum propNum⟩
  intro obj hobj hlen
  unfold getObjectProperties getObjectPropertiesT
  rw [hobj]
  simp only [if_neg (not_lt.mpr hlen)]

/-- Witness for C7: the object of `psB` has property address 100 in a
3-byte image and decodes to the empty table; the read at address 12 that
`_get_object_properties` performs on the worked scenario is within its
30-byte image. -/
theorem property_decoding_safe_witness :
    getObjectProperties psB 1 = [] ∧ 12 < psW.data.length :=
  ⟨(property_decoding_safe psB 1).1 ⟨0, 100⟩ (by decide) (by decide),
    (property_decoding_safe psW 142).2.1 12 (by decide)⟩

theorem alookup_append_singleton {α β : Type} [DecidableEq α]
    (l : List (α × β)) (k k' : α) (v : β) :
    alookup (l ++ [(k, v)]) k' =
      match alookup l k' with
      | some v' => some v'
      | none => if k = k' then some v else none := by
  induction l with
  | nil => simp [alookup]
  | cons e rest ih =>
    rw [show (e :: rest : List (α × β)) = (e.1, e.2) :: rest from rfl]
    rw [List.cons_append, alookup, alookup]
    by_cases he : e.1 = k'
    · rw [if_pos he, if_pos he]
    · rw [if_neg he, if_neg he, ih]

/-- The extra-byte fold of `_get_property_to_word_mapping` for one entry:
an existing binding is never overwritten, and a fresh property number in
range 1..31 occurring among the extra bytes gets this entry's word. -/
theorem alookup_propWord_inner (extra : List Nat) (w : String) :
    ∀ (acc : List (Nat × String)) (p : Nat),
      alookup
          (extra.foldl
            (fun acc b =>
              if 1 ≤ b ∧ b ≤ 31 ∧ (alookup acc b).isNone then acc ++ [(b, w)]
              else acc)
            acc)
          p
        = match alookup acc p with
          | some v => some v
          | none => if 1 ≤ p ∧ p ≤ 31 ∧ p ∈ extra then some w else none := by
  induction extra with
  | nil =>
    intro acc p
    rw [List.foldl_nil]
    cases h : alookup acc p with
    | some v => rfl
    | none => simp
  | cons b rest ih =>
    intro acc p
    rw [List.foldl_cons]
    by_cases hc : 1 ≤ b ∧ b ≤ 31 ∧ (alookup acc b).isNone
    · rw [if_pos hc, ih]
      rw [alookup_append_singleton]
      cases h : alookup acc p with
      | some v => rfl
      | none =>
        by_cases hbp : b = p
        · subst hbp
          rw [if_pos rfl]
          have : (1 ≤ b ∧ b ≤ 31 ∧ b ∈ b :: rest) := ⟨hc.1, hc.2.1,
            List.mem_cons_self _ _⟩
          rw [if_pos this]
        · rw [if_neg hbp]
          by_cases hp : 1 ≤ p ∧ p ≤ 31 ∧ p ∈ rest
          · rw [if_pos hp,
              if_pos ⟨hp.1, hp.2.1, List.mem_cons_of_mem _ hp.2.2⟩]
          · rw [if_neg hp, if_neg ?_]
            rintro ⟨h1, h2, h3⟩
            rcases List.mem_cons.mp h3 with rfl | h3
            · exact hbp rfl
            · exact hp ⟨h1, h2, h3⟩
    · rw [if_neg hc, ih]
      cases h : alookup acc p with
      | some v => rfl
      | none =>
        by_cases hbp : b = p
        · subst hbp
          have hnone : (alookup acc b).isNone := by rw [h]; rfl
          have hnb : ¬(1 ≤ b ∧ b ≤ 31) := by
            intro hh
            exact hc ⟨hh.1, hh.2, hnone⟩
          rw [if_neg ?_, if_neg ?_]
          · rintro ⟨h1, h2, -⟩
            exact hnb ⟨h1, h2⟩
          · rintro ⟨h1, h2, -⟩
            exact hnb ⟨h1, h2⟩
        · by_cases hp : 1 ≤ p ∧ p ≤ 31 ∧ p ∈ rest
          · rw [if_pos hp,
              if_pos ⟨hp.1, hp.2.1, List.mem_cons_of_mem _ hp.2.2⟩]
          · rw [if_neg hp, if_neg ?_]
            rintro ⟨h1, h2, h3⟩
            rcases List.mem_cons.mp h3 with rfl | h3
            · exact hbp rfl
            · exact hp ⟨h1, h2, h3⟩

/-- The entry fold of `_get_property_to_word_mapping` from an arbitrary
start index: the first entry (in order) whose extra bytes contain a fresh
in-range property number decides its word. -/
theorem alookup_propWord_outer (data : List Nat) (base entryLength : Nat)
    (ws : List String) :
    ∀ (k : Nat) (acc : List (Nat × String)) (p : Nat),
      alookup
          ((List.enumFrom k ws).foldl
            (fun acc iw =>
              let wNorm := pyNormWord iw.2
              (entryExtra data base entryLength iw.1).foldl
                (fun acc b =>
                  if 1 ≤ b ∧ b ≤ 31 ∧ (alookup acc b).isNone then
                    acc ++ [(b, wNorm)]
                  else acc)
                acc)
            acc)
          p
        = match alookup acc p with
          | some v => some v
          | none =>
            if 1 ≤ p ∧ p ≤ 31 then
              ((List.enumFrom k ws).find?
                (fun iw => (entryExtra data base entryLength iw.1).contains p)).map
                (fun iw => pyNormWord iw.2)
            else none := by
  induction ws with
  | nil =>
    intro k acc p
    rw [show List.enumFrom k ([] : List String) = [] from rfl, List.foldl_nil]
    cases h : alookup acc p with
    | some v => rfl
    | none => simp
  | cons w rest ih =>
    intro k acc p
    rw [show List.enumFrom k (w :: rest) = (k, w) :: List.enumFrom (k + 1) rest
      from rfl]
    rw [List.foldl_cons, ih]
    have hinner := alookup_propWord_inner
      (entryExtra data base entryLength k) (pyNormWord w) acc p
    rw [hinner]
    cases h : alookup acc p with
    | some v => rfl
    | none =>
      by_cases hp : 1 ≤ p ∧ p ≤ 31
      · by_cases hmem : p ∈ entryExtra data base entryLength k
        · have hfind : List.find?
              (fun iw => (entryExtra data base entryLength iw.1).contains p)
              ((k, w) :: List.enumFrom (k + 1) rest) = some (k, w) := by
            apply List.find?_cons_of_pos
            simpa using hmem
          rw [hfind, if_pos ⟨hp.1, hp.2, hmem⟩]
          simp [hp]
        · have hfind : List.find?
              (fun iw => (entryExtra data base entryLength iw.1).contains p)
              ((k, w) :: List.enumFrom (k + 1) rest)
              = List.find?
                (fun iw => (entryExtra data base entryLength iw.1).contains p)
                (List.enumFrom (k + 1) rest) := by
            apply List.find?_cons_of_neg
            simpa using hmem
          rw [if_neg (by rintro ⟨-, -, hm⟩; exact hmem hm), hfind, if_pos hp]
      · rw [if_neg (by rintro ⟨h1, h2, -⟩; exact hp ⟨h1, h2⟩),
          if_neg hp, if_neg hp]

/-- C4.  `_get_property_to_word_mapping` returns the empty mapping whenever
the dictionary entry length is at most 4; otherwise it returns the
first-wins scan of every entry's extra bytes: a property number in range
1..31 is mapped to the word of the first dictionary entry (in entry order)
whose extra bytes contain it, later occurrences being ignored, and nothing
outside 1..31 is ever mapped. -/
theorem word_property_hints_correct (ps : ZParserM)
    (entryLength base : Nat)
    (hdr : dictHeader ps = some (entryLength, base)) :
    (entryLength ≤ 4 → getPropertyToWordMapping ps = some []) ∧
    (4 < entryLength →
      getPropertyToWordMapping ps
          = some (buildPropToWord ps.data base entryLength ps.dictWords) ∧
      ∀ p, alookup (buildPropToWord ps.data base entryLength ps.dictWords) p
        = if 1 ≤ p ∧ p ≤ 31 then
            (ps.dictWords.enum.find?
              (fun iw =>
                (entryExtra ps.data base entryLength iw.1).contains p)).map
              (fun iw => pyNormWord iw.2)
          else none) := by
  have hmap : getPropertyToWordMapping ps
      = if entryLength ≤ 4 then some []
        else some (buildPropToWord ps.data base entryLength ps.dictWords) := by
    unfold getPropertyToWordMapping
    rw [hdr]
  constructor
  · intro hle
    rw [hmap, if_pos hle]
  · intro hgt
    constructor
    · rw [hmap, if_neg (by omega)]
    · intro p
      unfold buildPropToWord
      have := alookup_propWord_outer ps.data base entryLength ps.dictWords
        0 [] p
      rw [show (ps.dictWords.enum : List (Nat × String))
        = List.enumFrom 0 ps.dictWords from rfl]
      rw [this]
      rfl

/-- Witness for C4: the 4-byte-entry dictionary of `psD` yields the empty
mapping, and the 7-byte-entry dictionary of the worked scenario yields the
first-wins scan mapping. -/
theorem word_property_hints_correct_witness :
    getPropertyToWordMapping psD = some [] ∧
    getPropertyToWordMapping psW
      = some (buildPropToWord psW.data 4 7 psW.dictWords) :=
  ⟨(word_property_hints_correct psD 4 4 (by decide)).1 (by decide),
    ((word_property_hints_correct psW 7 4 (by decide)).2 (by decide)).1⟩

theorem alookup_isSome_iff {α β : Type} [DecidableEq α]
    (l : List (α × β)) (k : α) :
    (alookup l k).isSome ↔ k ∈ l.map Prod.fst := by
  induction l with
  | nil => simp [alookup]
  | cons e rest ih =>
    rw [show (e :: rest : List (α × β)) = (e.1, e.2) :: rest from rfl, alookup]
    by_cases he : e.1 = k
    · rw [if_pos he]
      simp [he]
    · rw [if_neg he]
      simp only [List.map_cons, List.mem_cons, ih]
      constructor
      · exact Or.inr
      · rintro (rfl | h)
        · exact absurd rfl he
        · exact h

theorem nodup_keys_append_single {α β : Type} [DecidableEq α]
    (l : List (α × β)) (k : α) (v : β)
    (h : (l.map Prod.fst).Nodup) (hk : alookup l k = none) :
    ((l ++ [(k, v)]).map Prod.fst).Nodup := by
  rw [List.map_append]
  refine List.Nodup.append h (by simp) ?_
  intro x hx hx'
  rcases List.mem_singleton.mp (by simpa using hx') with rfl
  have : (alookup l x).isSome := (alookup_isSome_iff l x).mpr hx
  rw [hk] at this
  exact absurd this (by simp)

/-- The per-property destination loop: the count advance equals the length
advance of the exit mapping, the count advances by at most one, existing
label bindings are never overwritten, and key uniqueness is preserved. -/
theorem addFirstDest_spec (word : String) :
    ∀ (dests : List Nat) (exits : RoomExits) (cnt : Nat),
      (addFirstDest word dests (exits, cnt)).1.length + cnt
          = exits.length + (addFirstDest word dests (exits, cnt)).2 ∧
      (addFirstDest word dests (exits, cnt)).2 ≤ cnt + 1 ∧
      (∀ w', (alookup exits w').isSome →
        alookup (addFirstDest word dests (exits, cnt)).1 w'
          = alookup exits w') ∧
      ((exits.map Prod.fst).Nodup →
        ((addFirstDest word dests (exits, cnt)).1.map Prod.fst).Nodup) := by
  intro dests
  induction dests with
  | nil => intro exits cnt; exact ⟨rfl, Nat.le_succ _, fun _ _ => rfl, id⟩
  | cons d rest ih =>
    intro exits cnt
    rw [addFirstDest]
    by_cases hw : (alookup exits word).isSome
    · rw [if_pos hw]
      exact ih exits cnt
    · rw [if_neg hw]
      have hnone : alookup exits word = none :=
        Option.not_isSome_iff_eq_none.mp hw
      refine ⟨by simp only [List.length_append, List.length_singleton]; omega,
        le_refl _, ?_, ?_⟩
      · intro w' hw'
        rw [alookup_append_singleton]
        rcases Option.isSome_iff_exists.mp hw' with ⟨v, hv⟩
        rw [hv]
      · intro hnd
        exact nodup_keys_append_single exits word d hnd hnone

theorem processRoom_cons (ps : ZParserM) (roomObjs : List Nat)
    (ptw : List (Nat × String)) (rn pn : Nat) (rest : List Nat)
    (st : RoomExits × Nat) :
    processRoom ps roomObjs (pn :: rest) ptw rn st
      = processRoom ps roomObjs rest ptw rn
          (match alookup (getObjectProperties ps rn) pn with
           | none => st
           | some propData =>
             addFirstDest ((alookup ptw pn).getD ("p" ++ toString pn))
               (extractRoomRefs propData rn roomObjs) st) := rfl

/-- One room's pass of step 3 of `extract_exits`: count advance equals
length advance, at most one exit per exit property, existing label bindings
are untouched, and key uniqueness is preserved. -/
theorem processRoom_spec (ps : ZParserM) (roomObjs : List Nat)
    (ptw : List (Nat × String)) (rn : Nat) :
    ∀ (exitProps : List Nat) (exits : RoomExits) (cnt : Nat),
      (processRoom ps roomObjs exitProps ptw rn (exits, cnt)).1.length + cnt
          = exits.length
            + (processRoom ps roomObjs exitProps ptw rn (exits, cnt)).2 ∧
      (processRoom ps roomObjs exitProps ptw rn (exits, cnt)).2
          ≤ cnt + exitProps.length ∧
      (∀ w, (alookup exits w).isSome →
        alookup (processRoom ps roomObjs exitProps ptw rn (exits, cnt)).1 w
          = alookup exits w) ∧
      ((exits.map Prod.fst).Nodup →
        ((processRoom ps roomObjs exitProps ptw rn
            (exits, cnt)).1.map Prod.fst).Nodup) := by
  intro exitProps
  induction exitProps with
  | nil =>
    intro exits cnt
    exact ⟨rfl, Nat.le_refl _, fun _ _ => rfl, id⟩
  | cons pn rest ih =>
    intro exits cnt
    cases hprop : alookup (getObjectProperties ps rn) pn with
    | none =>
      have hred : processRoom ps roomObjs (pn :: rest) ptw rn (exits, cnt)
          = processRoom ps roomObjs rest ptw rn (exits, cnt) := by
        rw [processRoom_cons, hprop]
      rw [hred]
      rcases ih exits cnt with ⟨h1, h2, h3, h4⟩
      exact ⟨h1, by simp only [List.length_cons]; omega, h3, h4⟩
    | some propData =>
      have hred : processRoom ps roomObjs (pn :: rest) ptw rn (exits, cnt)
          = processRoom ps roomObjs rest ptw rn
              (addFirstDest ((alookup ptw pn).getD ("p" ++ toString pn))
                (extractRoomRefs propData rn roomObjs) (exits, cnt)) := by
        rw [processRoom_cons, hprop]
      rw [hred]
      rcases addFirstDest_spec ((alookup ptw pn).getD ("p" ++ toString pn))
        (extractRoomRefs propData rn roomObjs) exits cnt with ⟨a1, a2, a3, a4⟩
      set st1 := addFirstDest ((alookup ptw pn).getD ("p" ++ toString pn))
        (extractRoomRefs propData rn roomObjs) (exits, cnt) with hst1
      rcases ih st1.1 st1.2 with ⟨h1, h2, h3, h4⟩
      rw [show (st1.1, st1.2) = st1 from rfl] at h1 h2 h3 h4
      refine ⟨by omega, by simp only [List.length_cons]; omega, ?_, ?_⟩
      · intro w hw
        have hsome1 : (alookup st1.1 w).isSome := by
          rw [a3 w hw]
          exact hw
        rw [h3 w hsome1, a3 w hw]
      · intro hnd
        exact h4 (a4 hnd)

theorem processRooms_cons (ps : ZParserM) (roomObjs : List Nat)
    (exitProps : List Nat) (ptw : List (Nat × String)) (rn : Nat)
    (exits : RoomExits) (rest : RoomsState) (cnt : Nat) :
    processRooms ps roomObjs exitProps ptw ((rn, exits) :: rest) cnt
      = (((rn,
            (processRoom ps roomObjs exitProps ptw rn (exits, cnt)).1)
          :: (processRooms ps roomObjs exitProps ptw rest
              (processRoom ps roomObjs exitProps ptw rn (exits, cnt)).2).1),
         (processRooms ps roomObjs exitProps ptw rest
            (processRoom ps roomObjs exitProps ptw rn (exits, cnt)).2).2) :=
  rfl

theorem exitsLenSum_cons (k : Nat) (ex : RoomExits) (rest : RoomsState) :
    exitsLenSum ((k, ex) :: rest) = ex.length + exitsLenSum rest := by
  simp [exitsLenSum]

/-- Step 3 of `extract_exits` over the whole room table: roomwise
correspondence (same identifiers, unique labels, untouched existing
bindings, at most one added exit per exit property) and exactness of the
total count. -/
theorem processRooms_spec (ps : ZParserM) (roomObjs : List Nat)
    (exitProps : List Nat) (ptw : List (Nat × String)) :
    ∀ (rooms : RoomsState) (cnt : Nat),
      List.Forall₂
        (fun a b => a.1 = b.1 ∧
          ((a.2.map Prod.fst).Nodup → (b.2.map Prod.fst).Nodup) ∧
          (∀ w, (alookup a.2 w).isSome → alookup b.2 w = alookup a.2 w) ∧
          b.2.length ≤ a.2.length + exitProps.length)
        rooms (processRooms ps roomObjs exitProps ptw rooms cnt).1 ∧
      exitsLenSum (processRooms ps roomObjs exitProps ptw rooms cnt).1 + cnt
        = exitsLenSum rooms
          + (processRooms ps roomObjs exitProps ptw rooms cnt).2 := by
  intro rooms
  induction rooms with
  | nil =>
    intro cnt
    exact ⟨List.Forall₂.nil, rfl⟩
  | cons re rest ih =>
    intro cnt
    rcases re with ⟨rn, exits⟩
    rw [processRooms_cons]
    rcases processRoom_spec ps roomObjs ptw rn exitProps exits cnt
      with ⟨p1, p2, p3, p4⟩
    rcases ih (processRoom ps roomObjs exitProps ptw rn (exits, cnt)).2
      with ⟨f1, f2⟩
    have hlen : (processRoom ps roomObjs exitProps ptw rn
        (exits, cnt)).1.length ≤ exits.length + exitProps.length := by
      omega
    refine ⟨List.Forall₂.cons ⟨rfl, p4, p3, hlen⟩ f1, ?_⟩
    rw [exitsLenSum_cons, exitsLenSum_cons]
    omega

/-- C3.  After `extract_exits`, each room keeps its identifier and its exit
mapping has at most one destination per distinct label (label keys stay
duplicate-free); a label that is already bound is never overwritten — the
first written pair wins and later pairs for the same label are dropped
silently — and each exit property contributes at most one exit to a room
(the per-property destination loop advances the count by at most one, and a
room's mapping grows by at most one entry per discovered exit property). -/
theorem exits_label_unique (ps : ZParserM) (rooms rooms' : RoomsState)
    (cnt : Nat) (h : extractExits ps rooms = some (rooms', cnt)) :
    List.Forall₂
      (fun (a b : Nat × RoomExits) => a.1 = b.1 ∧
        ((a.2.map Prod.fst).Nodup → (b.2.map Prod.fst).Nodup) ∧
        (∀ w, (alookup a.2 w).isSome → alookup b.2 w = alookup a.2 w) ∧
        b.2.length ≤ a.2.length
          + (findExitProperties ps (rooms.map Prod.fst)).length)
      rooms rooms' ∧
    (∀ word dests exits cnt',
      (addFirstDest word dests (exits, cnt')).2 ≤ cnt' + 1 ∧
      ∀ w', (alookup exits w').isSome →
        alookup (addFirstDest word dests (exits, cnt')).1 w'
          = alookup exits w') := by
  have refl_forall : List.Forall₂
      (fun (a b : Nat × RoomExits) => a.1 = b.1 ∧
        ((a.2.map Prod.fst).Nodup → (b.2.map Prod.fst).Nodup) ∧
        (∀ w, (alookup a.2 w).isSome → alookup b.2 w = alookup a.2 w) ∧
        b.2.length ≤ a.2.length
          + (findExitProperties ps (rooms.map Prod.fst)).length)
      rooms rooms := by
    refine List.forall₂_same.mpr ?_
    intro x _
    exact ⟨rfl, id, fun _ _ => rfl, Nat.le_add_right _ _⟩
  refine ⟨?_, fun word dests exits cnt' =>
    ⟨(addFirstDest_spec word dests exits cnt').2.1,
      (addFirstDest_spec word dests exits cnt').2.2.1⟩⟩
  unfold extractExits at h
  by_cases h0 : rooms.map Prod.fst = []
  · rw [if_pos h0] at h
    have h' : (rooms, 0) = (rooms', cnt) := Option.some.inj h
    have hr : rooms' = rooms := (congrArg Prod.fst h').symm
    rw [hr]
    exact refl_forall
  · rw [if_neg h0] at h
    by_cases h1 : findExitProperties ps (rooms.map Prod.fst) = []
    · rw [if_pos h1] at h
      have h' : (rooms, 0) = (rooms', cnt) := Option.some.inj h
      have hr : rooms' = rooms := (congrArg Prod.fst h').symm
      rw [hr]
      exact refl_forall
    · rw [if_neg h1] at h
      cases hptw : getPropertyToWordMapping ps with
      | none => rw [hptw] at h; exact absurd h (by simp)
      | some ptw0 =>
        rw [hptw] at h
        have h' : processRooms ps (rooms.map Prod.fst)
            (findExitProperties ps (rooms.map Prod.fst))
            (ptw0.filter
              (fun pw =>
                (findExitProperties ps (rooms.map Prod.fst)).contains pw.1))
            rooms 0 = (rooms', cnt) := Option.some.inj h
        have hr : rooms' = (processRooms ps (rooms.map Prod.fst)
            (findExitProperties ps (rooms.map Prod.fst))
            (ptw0.filter
              (fun pw =>
                (findExitProperties ps (rooms.map Prod.fst)).contains pw.1))
            rooms 0).1 := (congrArg Prod.fst h').symm
        rw [hr]
        exact (processRooms_spec ps (rooms.map Prod.fst)
          (findExitProperties ps (rooms.map Prod.fst)) _ rooms 0).1

/-- Witness for C3 on the worked scenario: `extract_exits` succeeds on the
two-room table and the roomwise correspondence holds there. -/
theorem exits_label_unique_witness :
    List.Forall₂
      (fun (a b : Nat × RoomExits) => a.1 = b.1 ∧
        ((a.2.map Prod.fst).Nodup → (b.2.map Prod.fst).Nodup) ∧
        (∀ w, (alookup a.2 w).isSome → alookup b.2 w = alookup a.2 w) ∧
        b.2.length ≤ a.2.length
          + (findExitProperties psW (roomsW.map Prod.fst)).length)
      roomsW [(142, [("down", 143)]), (143, [])] :=
  (exits_label_unique psW roomsW [(142, [("down", 143)]), (143, [])] 1
    (by decide)).1

/-- C8.  `extract_exits` returns exactly the number of (label, destination)
pairs it added to the rooms' exit mappings: the total mapping size after
the call equals the total before plus the returned count; and for an empty
room set or an empty discovered exit-property set it returns zero and
leaves every room's exit mapping unchanged. -/
theorem exit_count_exact (ps : ZParserM) (rooms : RoomsState) :
    (rooms = [] → extractExits ps rooms = some (rooms, 0)) ∧
    (findExitProperties ps (rooms.map Prod.fst) = [] →
      extractExits ps rooms = some (rooms, 0)) ∧
    (∀ rooms' cnt, extractExits ps rooms = some (rooms', cnt) →
      exitsLenSum rooms' = exitsLenSum rooms + cnt) := by
  refine ⟨?_, ?_, ?_⟩
  · rintro rfl
    rfl
  · intro h1
    unfold extractExits
    by_cases h0 : rooms.map Prod.fst = []
    · rw [if_pos h0]
    · rw [if_neg h0, if_pos h1]
  · intro rooms' cnt h
    unfold extractExits at h
    by_cases h0 : rooms.map Prod.fst = []
    · rw [if_pos h0] at h
      have h' : (rooms, 0) = (rooms', cnt) := Option.some.inj h
      have hr : rooms' = rooms := (congrArg Prod.fst h').symm
      have hc : cnt = 0 := (congrArg Prod.snd h').symm
      rw [hr, hc]
      omega
    · rw [if_neg h0] at h
      by_cases h1 : findExitProperties ps (rooms.map Prod.fst) = []
      · rw [if_pos h1] at h
        have h' : (rooms, 0) = (rooms', cnt) := Option.some.inj h
        have hr : rooms' = rooms := (congrArg Prod.fst h').symm
        have hc : cnt = 0 := (congrArg Prod.snd h').symm
        rw [hr, hc]
        omega
      · rw [if_neg h1] at h
        cases hptw : getPropertyToWordMapping ps with
        | none => rw [hptw] at h; exact absurd h (by simp)
        | some ptw0 =>
          rw [hptw] at h
          have h' : processRooms ps (rooms.map Prod.fst)
              (findExitProperties ps (rooms.map Prod.fst))
              (ptw0.filter
                (fun pw =>
                  (findExitProperties ps (rooms.map Prod.fst)).contains pw.1))
              rooms 0 = (rooms', cnt) := Option.some.inj h
          have hsum := (processRooms_spec ps (rooms.map Prod.fst)
            (findExitProperties ps (rooms.map Prod.fst))
            (ptw0.filter
              (fun pw =>
                (findExitProperties ps (rooms.map Prod.fst)).contains pw.1))
            rooms 0).2
          have hr : rooms' = (processRooms ps (rooms.map Prod.fst)
              (findExitProperties ps (rooms.map Prod.fst))
              (ptw0.filter
                (fun pw =>
                  (findExitProperties ps (rooms.map Prod.fst)).contains pw.1))
              rooms 0).1 := (congrArg Prod.fst h').symm
          have hc : cnt = (processRooms ps (rooms.map Prod.fst)
              (findExitProperties ps (rooms.map Prod.fst))
              (ptw0.filter
                (fun pw =>
                  (findExitProperties ps (rooms.map Prod.fst)).contains pw.1))
              rooms 0).2 := (congrArg Prod.snd h').symm
          rw [hr, hc]
          omega

/-- Witness for C8: on the worked scenario the extracted count 1 matches
the one added pair; on the empty room table and on a one-room table with no
discovered exit property the count is zero and the table is unchanged. -/
theorem exit_count_exact_witness :
    extractExits psW ([] : RoomsState) = some ([], 0) ∧
    extractExits psW [(143, [])] = some ([(143, [])], 0) ∧
    exitsLenSum [(142, [("down", 143)]), (143, [])] = exitsLenSum roomsW + 1 :=
  ⟨(exit_count_exact psW []).1 rfl,
    (exit_count_exact psW [(143, [])]).2.1 (by decide),
    (exit_count_exact psW roomsW).2.2 [(142, [("down", 143)]), (143, [])] 1
      (by decide)⟩

theorem fallbackScan_zero (ps : ZParserM) (stop n : Nat) (rooms : List Nat) :
    fallbackScan ps stop 0 n rooms = rooms := rfl

theorem fallbackScan_stop (ps : ZParserM) (stop fuel n : Nat)
    (rooms : List Nat) (hn : ¬n < stop) :
    fallbackScan ps stop (fuel + 1) n rooms = rooms := by
  rw [fallbackScan, if_neg hn]

theorem fallbackScan_skip (ps : ZParserM) (stop fuel n : Nat)
    (rooms : List Nat) (hn : n < stop) (hmem : n ∈ rooms) :
    fallbackScan ps stop (fuel + 1) n rooms
      = fallbackScan ps stop fuel (n + 1) rooms := by
  rw [fallbackScan, if_pos hn, if_pos hmem]

theorem fallbackScan_break (ps : ZParserM) (stop fuel n : Nat)
    (rooms : List Nat) (hn : n < stop) (hmem : n ∉ rooms)
    (hobj : ps.getObject n = none) :
    fallbackScan ps stop (fuel + 1) n rooms = rooms := by
  rw [fallbackScan, if_pos hn, if_neg hmem, hobj]

theorem fallbackScan_step (ps : ZParserM) (stop fuel n : Nat)
    (rooms : List Nat) (hn : n < stop) (hmem : n ∉ rooms) (obj : ZObjectM)
    (hobj : ps.getObject n = some obj) :
    fallbackScan ps stop (fuel + 1) n rooms
      = if nameOk ps n then fallbackScan ps stop fuel (n + 1) (rooms ++ [n])
        else fallbackScan ps stop fuel (n + 1) rooms := by
  rw [fallbackScan, if_pos hn, if_neg hmem, hobj]

theorem fallbackScan_mono (ps : ZParserM) (stop : Nat) :
    ∀ (fuel n : Nat) (rooms : List Nat) (x : Nat),
      x ∈ rooms → x ∈ fallbackScan ps stop fuel n rooms := by
  intro fuel
  induction fuel with
  | zero => intro n rooms x hx; exact hx
  | succ fuel ih =>
    intro n rooms x hx
    by_cases hn : n < stop
    · by_cases hmem : n ∈ rooms
      · rw [fallbackScan_skip ps stop fuel n rooms hn hmem]
        exact ih _ _ _ hx
      · cases hobj : ps.getObject n with
        | none =>
          rw [fallbackScan_break ps stop fuel n rooms hn hmem hobj]
          exact hx
        | some obj =>
          rw [fallbackScan_step ps stop fuel n rooms hn hmem obj hobj]
          by_cases hname : nameOk ps n = true
          · rw [if_pos hname]
            exact ih _ _ _ (List.mem_append.mpr (Or.inl hx))
          · rw [if_neg hname]
            exact ih _ _ _ hx
    · rw [fallbackScan_stop ps stop fuel n rooms hn]
      exact hx

theorem fallbackScan_range (ps : ZParserM) (stop : Nat) :
    ∀ (fuel n : Nat) (rooms : List Nat) (x : Nat),
      x ∈ fallbackScan ps stop fuel n rooms → x ∈ rooms ∨ n ≤ x := by
  intro fuel
  induction fuel with
  | zero => intro n rooms x hx; exact Or.inl hx
  | succ fuel ih =>
    intro n rooms x hx
    by_cases hn : n < stop
    · by_cases hmem : n ∈ rooms
      · rw [fallbackScan_skip ps stop fuel n rooms hn hmem] at hx
        rcases ih _ _ _ hx with h | h
        · exact Or.inl h
        · exact Or.inr (by omega)
      · cases hobj : ps.getObject n with
        | none =>
          rw [fallbackScan_break ps stop fuel n rooms hn hmem hobj] at hx
          exact Or.inl hx
        | some obj =>
          rw [fallbackScan_step ps stop fuel n rooms hn hmem obj hobj] at hx
          by_cases hname : nameOk ps n = true
          · rw [if_pos hname] at hx
            rcases ih _ _ _ hx with h | h
            · rcases List.mem_append.mp h with h' | h'
              · exact Or.inl h'
              · rcases List.mem_singleton.mp h' with rfl
                exact Or.inr (le_refl _)
            · exact Or.inr (by omega)
          · rw [if_neg hname] at hx
            rcases ih _ _ _ hx with h | h
            · exact Or.inl h
            · exact Or.inr (by omega)
    · rw [fallbackScan_stop ps stop fuel n rooms hn] at hx
      exact Or.inl hx

theorem fallbackScan_nameOk (ps : ZParserM) (stop : Nat) :
    ∀ (fuel n : Nat) (rooms : List Nat) (x : Nat),
      x ∈ fallbackScan ps stop fuel n rooms →
        x ∈ rooms ∨ nameOk ps x = true := by
  intro fuel
  induction fuel with
  | zero => intro n rooms x hx; exact Or.inl hx
  | succ fuel ih =>
    intro n rooms x hx
    by_cases hn : n < stop
    · by_cases hmem : n ∈ rooms
      · rw [fallbackScan_skip ps stop fuel n rooms hn hmem] at hx
        exact ih _ _ _ hx
      · cases hobj : ps.getObject n with
        | none =>
          rw [fallbackScan_break ps stop fuel n rooms hn hmem hobj] at hx
          exact Or.inl hx
        | some obj =>
          rw [fallbackScan_step ps stop fuel n rooms hn hmem obj hobj] at hx
          by_cases hname : nameOk ps n = true
          · rw [if_pos hname] at hx
            rcases ih _ _ _ hx with h | h
            · rcases List.mem_append.mp h with h' | h'
              · exact Or.inl h'
              · rcases List.mem_singleton.mp h' with rfl
                exact Or.inr hname
            · exact Or.inr h
          · rw [if_neg hname] at hx
            exact ih _ _ _ hx
    · rw [fallbackScan_stop ps stop fuel n rooms hn] at hx
      exact Or.inl hx

/-- Reachability through the fallback scan: if no undecodable,
not-yet-classified object stands between the cursor and `x`, and `x`
decodes with an acceptable name, the scan classifies it. -/
theorem fallbackScan_reach (ps : ZParserM) (stop : Nat) :
    ∀ (fuel n : Nat) (rooms : List Nat) (x : Nat),
      n ≤ x → x < stop → x < n + fuel →
      (∀ k, n ≤ k → k ≤ x → k ∈ rooms ∨ (ps.getObject k).isSome) →
      (ps.getObject x).isSome → nameOk ps x = true →
      x ∈ fallbackScan ps stop fuel n rooms := by
  intro fuel
  induction fuel with
  | zero => intro n rooms x h1 _ h3 _ _ _; omega
  | succ fuel ih =>
    intro n rooms x h1 h2 h3 hdec hx hname
    have hn : n < stop := by omega
    by_cases hmem : n ∈ rooms
    · rw [fallbackScan_skip ps stop fuel n rooms hn hmem]
      by_cases hxn : x = n
      · exact fallbackScan_mono ps stop fuel (n + 1) rooms x (hxn ▸ hmem)
      · exact ih (n + 1) rooms x (by omega) h2 (by omega)
          (fun k hk1 hk2 => hdec k (by omega) hk2) hx hname
    · have hobj : (ps.getObject n).isSome := by
        rcases hdec n (le_refl _) h1 with h | h
        · exact absurd h hmem
        · exact h
      rcases Option.isSome_iff_exists.mp hobj with ⟨obj, hobj'⟩
      rw [fallbackScan_step ps stop fuel n rooms hn hmem obj hobj']
      by_cases hxn : x = n
      · subst hxn
        rw [if_pos hname]
        exact fallbackScan_mono ps stop fuel (x + 1) (rooms ++ [x]) x
          (List.mem_append.mpr (Or.inr (List.mem_singleton.mpr rfl)))
      · by_cases hnm : nameOk ps n = true
        · rw [if_pos hnm]
          refine ih (n + 1) (rooms ++ [n]) x (by omega) h2 (by omega) ?_ hx hname
          intro k hk1 hk2
          rcases hdec k (by omega) hk2 with h | h
          · exact Or.inl (List.mem_append.mpr (Or.inl h))
          · exact Or.inr h
        · rw [if_neg hnm]
          exact ih (n + 1) rooms x (by omega) h2 (by omega)
            (fun k hk1 hk2 => hdec k (by omega) hk2) hx hname

/-- The stop behaviour of the fallback scan: once an undecodable,
not-yet-classified object `k` lies at or ahead of the cursor, nothing at or
beyond `k` is ever added. -/
theorem fallbackScan_stopAt (ps : ZParserM) (stop : Nat) :
    ∀ (fuel n : Nat) (rooms : List Nat) (x k : Nat),
      n ≤ k → ps.getObject k = none → k ∉ rooms →
      x ∈ fallbackScan ps stop fuel n rooms → x ∈ rooms ∨ x < k := by
  intro fuel
  induction fuel with
  | zero => intro n rooms x k _ _ _ hx; exact Or.inl hx
  | succ fuel ih =>
    intro n rooms x k hk hknone hknotin hx
    by_cases hn : n < stop
    · by_cases hmem : n ∈ rooms
      · rw [fallbackScan_skip ps stop fuel n rooms hn hmem] at hx
        have hne : n ≠ k := fun h => hknotin (h ▸ hmem)
        exact ih (n + 1) rooms x k (by omega) hknone hknotin hx
      · by_cases hnk : n = k
        · subst hnk
          rw [fallbackScan_break ps stop fuel n rooms hn hmem hknone] at hx
          exact Or.inl hx
        · cases hobj : ps.getObject n with
          | none =>
            rw [fallbackScan_break ps stop fuel n rooms hn hmem hobj] at hx
            exact Or.inl hx
          | some obj =>
            rw [fallbackScan_step ps stop fuel n rooms hn hmem obj hobj] at hx
            by_cases hname : nameOk ps n = true
            · rw [if_pos hname] at hx
              have hknotin' : k ∉ rooms ++ [n] := by
                intro h
                rcases List.mem_append.mp h with h' | h'
                · exact hknotin h'
                · exact hnk (List.mem_singleton.mp h').symm
              rcases ih (n + 1) (rooms ++ [n]) x k (by omega) hknone hknotin'
                  hx with h | h
              · rcases List.mem_append.mp h with h' | h'
                · exact Or.inl h'
                · rcases List.mem_singleton.mp h' with rfl
                  exact Or.inr (by omega)
              · exact Or.inr h
            · rw [if_neg hname] at hx
              exact ih (n + 1) rooms x k (by omega) hknone hknotin hx
    · rw [fallbackScan_stop ps stop fuel n rooms hn] at hx
      exact Or.inl hx

/-- Same-fuel idempotence of the fallback scan. -/
theorem fallbackScan_idem (ps : ZParserM) (stop : Nat) :
    ∀ (fuel n : Nat) (rooms : List Nat),
      fallbackScan ps stop fuel n (fallbackScan ps stop fuel n rooms)
        = fallbackScan ps stop fuel n rooms := by
  intro fuel
  induction fuel with
  | zero => intro n rooms; rfl
  | succ fuel ih =>
    intro n rooms
    by_cases hn : n < stop
    · by_cases hmem : n ∈ rooms
      · rw [fallbackScan_skip ps stop fuel n rooms hn hmem]
        have hmem' : n ∈ fallbackScan ps stop fuel (n + 1) rooms :=
          fallbackScan_mono ps stop fuel (n + 1) rooms n hmem
        rw [fallbackScan_skip ps stop fuel n _ hn hmem']
        exact ih (n + 1) rooms
      · cases hobj : ps.getObject n with
        | none =>
          rw [fallbackScan_break ps stop fuel n rooms hn hmem hobj,
            fallbackScan_break ps stop fuel n rooms hn hmem hobj]
        | some obj =>
          rw [fallbackScan_step ps stop fuel n rooms hn hmem obj hobj]
          by_cases hname : nameOk ps n = true
          · rw [if_pos hname]
            have hmem' : n ∈ fallbackScan ps stop fuel (n + 1) (rooms ++ [n]) :=
              fallbackScan_mono ps stop fuel (n + 1) (rooms ++ [n]) n
                (List.mem_append.mpr (Or.inr (List.mem_singleton.mpr rfl)))
            rw [fallbackScan_skip ps stop fuel n _ hn hmem']
            exact ih (n + 1) (rooms ++ [n])
          · rw [if_neg hname]
            have hmem' : n ∉ fallbackScan ps stop fuel (n + 1) rooms := by
              intro h
              rcases fallbackScan_range ps stop fuel (n + 1) rooms n h with
                h' | h'
              · exact hmem h'
              · omega
            rw [fallbackScan_step ps stop fuel n _ hn hmem' obj hobj,
              if_neg hname]
            exact ih (n + 1) rooms
    · rw [fallbackScan_stop ps stop fuel n rooms hn,
        fallbackScan_stop ps stop fuel n rooms hn]

theorem phase2_foldl_mono (ps : ZParserM) (L : List Nat) :
    ∀ (acc : List Nat) (x : Nat), x ∈ acc →
      x ∈ L.foldl
        (fun rooms n => if phase2Cond ps n then insertKey n rooms else rooms)
        acc := by
  induction L with
  | nil => intro acc x hx; exact hx
  | cons m rest ih =>
    intro acc x hx
    rw [List.foldl_cons]
    by_cases hc : phase2Cond ps m = true
    · rw [if_pos hc]
      exact ih _ x (mem_insertKey.mpr (Or.inr hx))
    · rw [if_neg hc]
      exact ih _ x hx

theorem phase2_foldl_mem (ps : ZParserM) (L : List Nat) :
    ∀ (acc : List Nat) (n : Nat), n ∈ L → phase2Cond ps n = true →
      n ∈ L.foldl
        (fun rooms n => if phase2Cond ps n then insertKey n rooms else rooms)
        acc := by
  induction L with
  | nil => intro acc n hn; exact absurd hn (List.not_mem_nil n)
  | cons m rest ih =>
    intro acc n hn hc
    rw [List.foldl_cons]
    rcases List.mem_cons.mp hn with rfl | hn
    · rw [if_pos hc]
      exact phase2_foldl_mono ps rest _ n (mem_insertKey.mpr (Or.inl rfl))
    · by_cases hcm : phase2Cond ps m = true
      · rw [if_pos hcm]
        exact ih _ n hn hc
      · rw [if_neg hcm]
        exact ih _ n hn hc

theorem phase2_foldl_sub (ps : ZParserM) (L : List Nat) :
    ∀ (acc : List Nat) (x : Nat),
      x ∈ L.foldl
          (fun rooms n => if phase2Cond ps n then insertKey n rooms else rooms)
          acc →
        x ∈ acc ∨ phase2Cond ps x = true := by
  induction L with
  | nil => intro acc x hx; exact Or.inl hx
  | cons m rest ih =>
    intro acc x hx
    rw [List.foldl_cons] at hx
    by_cases hc : phase2Cond ps m = true
    · rw [if_pos hc] at hx
      rcases ih _ x hx with h | h
      · rcases mem_insertKey.mp h with rfl | h'
        · exact Or.inr hc
        · exact Or.inl h'
      · exact Or.inr h
    · rw [if_neg hc] at hx
      exact ih _ x hx

theorem phase2_foldl_noop (ps : ZParserM) (L : List Nat) :
    ∀ (acc : List Nat),
      (∀ n, n ∈ L → phase2Cond ps n = true → n ∈ acc) →
      L.foldl
          (fun rooms n => if phase2Cond ps n then insertKey n rooms else rooms)
          acc
        = acc := by
  induction L with
  | nil => intro acc _; rfl
  | cons m rest ih =>
    intro acc hacc
    rw [List.foldl_cons]
    by_cases hc : phase2Cond ps m = true
    · rw [if_pos hc]
      have hm : m ∈ acc := hacc m (List.mem_cons_self _ _) hc
      rw [show insertKey m acc = acc from by unfold insertKey; rw [if_pos hm]]
      exact ih acc (fun n hn hcn => hacc n (List.mem_cons_of_mem _ hn) hcn)
    · rw [if_neg hc]
      exact ih acc (fun n hn hcn => hacc n (List.mem_cons_of_mem _ hn) hcn)

theorem mem_phase2_of_cond (ps : ZParserM) (rooms0 : List Nat) (n : Nat)
    (hn : n ∈ List.range' 1 (scanBound ps - 1))
    (hc : phase2Cond ps n = true) :
    n ∈ phase2 ps rooms0 :=
  phase2_foldl_mem ps (List.range' 1 (scanBound ps - 1)) rooms0 n hn hc

theorem mem_phase2_sub (ps : ZParserM) (rooms0 : List Nat) (x : Nat)
    (hx : x ∈ phase2 ps rooms0) :
    x ∈ rooms0 ∨ phase2Cond ps x = true :=
  phase2_foldl_sub ps (List.range' 1 (scanBound ps - 1)) rooms0 x hx

theorem mem_findRooms_of_phase2 (ps : ZParserM) (rooms0 : List Nat) (x : Nat)
    (hx : x ∈ phase2 ps rooms0) : x ∈ findRooms ps rooms0 := by
  simp only [findRooms]
  by_cases h : (phase2 ps rooms0).length < 10
  · rw [if_pos h]
    exact fallbackScan_mono ps (fbBound ps) (fbBound ps) 142 _ x hx
  · rw [if_neg h]
    exact hx

theorem mem_findRooms_nameOk (ps : ZParserM) (x : Nat)
    (hx : x ∈ findRooms ps []) : nameOk ps x = true := by
  have hofp2 : ∀ y, y ∈ phase2 ps [] → nameOk ps y = true := by
    intro y hy
    rcases mem_phase2_sub ps [] y hy with h | h
    · exact absurd h (List.not_mem_nil y)
    · unfold phase2Cond at h
      cases hobj : ps.getObject y with
      | none => rw [hobj] at h; exact absurd h (by simp)
      | some obj =>
        rw [hobj] at h
        rw [Bool.and_eq_true] at h
        exact h.2
  simp only [findRooms] at hx
  by_cases h : (phase2 ps []).length < 10
  · rw [if_pos h] at hx
    rcases fallbackScan_nameOk ps (fbBound ps) (fbBound ps) 142 _ x hx with
      h' | h'
    · exact hofp2 x h'
    · exact h'
  · rw [if_neg h] at hx
    exact hofp2 x hx

theorem findObjectsScan_nameOk (ps : ZParserM) (stop : Nat) :
    ∀ (fuel n : Nat) (acc : List Nat) (x : Nat),
      x ∈ findObjectsScan ps stop fuel n acc →
        x ∈ acc ∨ nameOk ps x = true := by
  intro fuel
  induction fuel with
  | zero => intro n acc x hx; exact Or.inl hx
  | succ fuel ih =>
    intro n acc x hx
    by_cases hn : n < stop
    · cases hobj : ps.getObject n with
      | none =>
        rw [show findObjectsScan ps stop (fuel + 1) n acc = acc from by
          rw [findObjectsScan, if_pos hn, hobj]] at hx
        exact Or.inl hx
      | some obj =>
        by_cases hname : nameOk ps n = true
        · by_cases htak : (hasProperty ps n 5 || hasProperty ps n 6
              || hasProperty ps n 9) = true
          · rw [show findObjectsScan ps stop (fuel + 1) n acc
                = findObjectsScan ps stop fuel (n + 1) (acc ++ [n]) from by
              rw [findObjectsScan, if_pos hn, hobj, if_pos hname,
                if_pos htak]] at hx
            rcases ih _ _ x hx with h | h
            · rcases List.mem_append.mp h with h' | h'
              · exact Or.inl h'
              · rcases List.mem_singleton.mp h' with rfl
                exact Or.inr hname
            · exact Or.inr h
          · rw [show findObjectsScan ps stop (fuel + 1) n acc
                = findObjectsScan ps stop fuel (n + 1) acc from by
              rw [findObjectsScan, if_pos hn, hobj, if_pos hname,
                if_neg htak]] at hx
            exact ih _ _ x hx
        · rw [show findObjectsScan ps stop (fuel + 1) n acc
              = findObjectsScan ps stop fuel (n + 1) acc from by
            rw [findObjectsScan, if_pos hn, hobj, if_neg hname]] at hx
          exact ih _ _ x hx
    · rw [show findObjectsScan ps stop (fuel + 1) n acc = acc from by
        rw [findObjectsScan, if_neg hn]] at hx
      exact Or.inl hx

theorem mem_findObjects_nameOk (ps : ZParserM) (roomKeys : List Nat) (x : Nat)
    (hx : x ∈ findObjects ps roomKeys) : nameOk ps x = true := by
  cases roomKeys with
  | nil => exact absurd hx (List.not_mem_nil x)
  | cons k ks =>
    rcases findObjectsScan_nameOk ps (ks.foldl Nat.min k)
        (ks.foldl Nat.min k) 1 [] x hx with h | h
    · exact absurd h (List.not_mem_nil x)
    · exact h

/-- C5.  When container clustering leaves fewer than ten rooms, the
fallback contiguous-range scan activates from the conventional offset 142:
the final room set is the fallback scan of the phase-2 set; every object in
the scanned range that decodes with a valid name is classified provided no
undecodable unclassified object precedes it; and the scan stops at the
first undecodable unclassified object — nothing at or beyond it is
classified except what phase 2 already classified. -/
theorem fallback_scan_activates (ps : ZParserM)
    (h : (phase2 ps []).length < 10) :
    findRooms ps [] = runFallback ps (phase2 ps []) ∧
    (∀ n, 142 ≤ n → n < fbBound ps →
      (∀ k, 142 ≤ k → k ≤ n → k ∈ phase2 ps [] ∨ (ps.getObject k).isSome) →
      (ps.getObject n).isSome → nameOk ps n = true →
      n ∈ findRooms ps []) ∧
    (∀ k x, 142 ≤ k → ps.getObject k = none → k ∉ phase2 ps [] →
      x ∈ findRooms ps [] → x ∈ phase2 ps [] ∨ x < k) := by
  have heq : findRooms ps [] = runFallback ps (phase2 ps []) := by
    simp only [findRooms]
    rw [if_pos h]
  refine ⟨heq, ?_, ?_⟩
  · intro n h1 h2 hdec hobj hname
    rw [heq]
    unfold runFallback
    exact fallbackScan_reach ps (fbBound ps) (fbBound ps) 142 _ n h1 h2
      (by omega) hdec hobj hname
  · intro k x h1 hknone hknotin hx
    rw [heq] at hx
    unfold runFallback at hx
    exact fallbackScan_stopAt ps (fbBound ps) (fbBound ps) 142 _ x k h1
      hknone hknotin hx

/-- Witness for C5: on `psF` the clustering phase classifies nothing, the
fallback activates, and object 142 ("Kitchen") is classified. -/
theorem fallback_scan_activates_witness : 142 ∈ findRooms psF [] :=
  (fallback_scan_activates psF (by decide)).2.1 142 (by decide) (by decide)
    (fun k hk1 hk2 => by
      have hk : k = 142 := le_antisymm hk2 hk1
      subst hk
      exact Or.inr (by decide))
    (by decide) (by decide)

/-- C6.  `_is_valid_name` accepts exactly the non-empty names in which at
least 70% of the characters are acceptable (printable alphanumeric or
common punctuation); an object whose name fails this gate is excluded from
room classification and from object classification, regardless of its
property shape. -/
theorem valid_name_gate (s : String) (ps : ZParserM) (n : Nat) :
    (isValidName s = true ↔
      s.data ≠ [] ∧
        7 * s.data.length ≤ 10 * (s.data.filter pyCharOk).length) ∧
    (∀ nm, ps.getObjectName n = some nm → isValidName nm = false →
      n ∉ findRooms ps [] ∧ n ∉ findObjects ps (findRooms ps [])) := by
  constructor
  · unfold isValidName
    by_cases he : s.data.isEmpty = true
    · rw [if_pos he]
      have hnil : s.data = [] := by
        cases hd : s.data with
        | nil => rfl
        | cons c cs => rw [hd] at he; exact absurd he (by simp [List.isEmpty])
      simp [hnil]
    · rw [if_neg he]
      have hne : s.data ≠ [] := by
        intro hnil
        rw [hnil] at he
        exact he rfl
      rw [Bool.and_eq_true, decide_eq_true_eq, decide_eq_true_eq]
      constructor
      · rintro ⟨-, h2⟩
        exact ⟨hne, h2⟩
      · rintro ⟨-, h2⟩
        exact ⟨List.length_pos.mpr hne, h2⟩
  · intro nm hnm hbad
    have hnOk : nameOk ps n = false := by
      have hred : nameOk ps n
          = (!nm.data.isEmpty
              && !(List.dropWhile Char.isWhitespace nm.data).isEmpty
              && isValidName nm) := by
        unfold nameOk
        rw [hnm]
      rw [hred, hbad]
      simp
    constructor
    · intro hmem
      have := mem_findRooms_nameOk ps n hmem
      rw [hnOk] at this
      exact Bool.false_ne_true this
    · intro hmem
      have := mem_findObjects_nameOk ps (findRooms ps []) n hmem
      rw [hnOk] at this
      exact Bool.false_ne_true this

/-- Witness for C6: the 40%-printable garbled name is rejected, and the
garbled-named object 5 of `psF` is classified neither as a room nor as an
object. -/
theorem valid_name_gate_witness :
    isValidName garbledName = false ∧
    (5 ∉ findRooms psF [] ∧ 5 ∉ findObjects psF (findRooms psF [])) :=
  ⟨by decide,
    (valid_name_gate garbledName psF 5).2 garbledName (by decide) (by decide)⟩

/-- C9.  Room identification is idempotent: running `_find_rooms` a second
time on the extractor state produced by the first run leaves the room key
set unchanged. -/
theorem find_rooms_idempotent (ps : ZParserM) :
    findRooms ps (findRooms ps []) = findRooms ps [] := by
  have unfoldR : ∀ rooms0 : List Nat, findRooms ps rooms0
      = if (phase2 ps rooms0).length < 10
        then runFallback ps (phase2 ps rooms0) else phase2 ps rooms0 :=
    fun _ => rfl
  have hsub : ∀ x, x ∈ phase2 ps [] → x ∈ findRooms ps [] :=
    fun x hx => mem_findRooms_of_phase2 ps [] x hx
  have hp2 : phase2 ps (findRooms ps []) = findRooms ps [] := by
    unfold phase2
    apply phase2_foldl_noop
    intro n hn hc
    exact hsub n (mem_phase2_of_cond ps [] n hn hc)
  rw [unfoldR (findRooms ps []), hp2]
  by_cases h2 : (findRooms ps []).length < 10
  · rw [if_pos h2]
    by_cases hsmall : (phase2 ps []).length < 10
    · have hR : findRooms ps [] = runFallback ps (phase2 ps []) := by
        rw [unfoldR [], if_pos hsmall]
      rw [hR]
      unfold runFallback
      exact fallbackScan_idem ps (fbBound ps) (fbBound ps) 142 (phase2 ps [])
    · have hR : findRooms ps [] = phase2 ps [] := by
        rw [unfoldR [], if_neg hsmall]
      rw [hR] at h2
      exact absurd h2 hsmall
  · rw [if_neg h2]

/-- C10 counterexample: on `psX` phase 1 finds no candidate, object 255 has
parent 27 and a valid name, yet it is not classified as a room — it lies
outside the version-3 scan range `range(1, 255)`. -/
theorem default_container_counterexample :
    phase1Candidates psX = [] ∧
    psX.getObject 255 = some ⟨27, 0⟩ ∧
    nameOk psX 255 = true ∧
    255 ∉ findRooms psX [] := by
  refine ⟨by decide, by decide, by decide, by decide⟩

/-- C10 (amended).  If phase 1 of room identification finds no candidate,
identification proceeds with the hard-coded default rooms container 27, and
every valid-named object inside the scanned range (`range(1, min(max_obj,
256))`) whose parent is 27 is classified as a room. -/
theorem default_container_amended (ps : ZParserM) (n : Nat) (obj : ZObjectM)
    (hcand : phase1Candidates ps = [])
    (hobj : ps.getObject n = some obj) (hpar : obj.parent = 27)
    (hlo : 1 ≤ n) (hhi : n < scanBound ps) (hname : nameOk ps n = true) :
    roomsContainer ps = 27 ∧ n ∈ findRooms ps [] := by
  have hcont : roomsContainer ps = 27 := by
    unfold roomsContainer
    rw [hcand]
    rfl
  refine ⟨hcont, ?_⟩
  have hc : phase2Cond ps n = true := by
    unfold phase2Cond
    rw [hobj, Bool.and_eq_true]
    refine ⟨?_, hname⟩
    rw [hpar, hcont]
    decide
  have hmem : n ∈ List.range' 1 (scanBound ps - 1) := by
    rw [List.mem_range'_1]
    omega
  exact mem_findRooms_of_phase2 ps [] n (mem_phase2_of_cond ps [] n hmem hc)

/-- Witness for the amended C10: on `psY` (no candidates, object 150 with
parent 27 and a valid name) the default container is 27 and object 150 is
classified. -/
theorem default_container_amended_witness :
    roomsContainer psY = 27 ∧ 150 ∈ findRooms psY [] :=
  default_container_amended psY 150 ⟨27, 0⟩ (by decide) (by decide) rfl
    (by decide) (by decide) (by decide)

end Z2PDF
